import Mathlib

/-
Verification development for `tools/generate_graph.py` (conda-env-configs).

The script scans environment definitions, resolves referenced requirement
files into per-environment package maps, computes a version index and a
cluster partition, and renders a Mermaid graph plus a text cluster report.

Embedding conventions:
* Python `dict`s are association lists (`List (κ × α)`); insertion order is
  the list order, and lookups use key equality (`dict_get`, `dict_set`).
* Python `set`/`frozenset` values are represented canonically as strictly
  sorted duplicate-free `List String` (the code itself canonicalises cluster
  keys with `frozenset(sorted(env_set))`).  `sadd` is `set.add`.  Iteration
  order of a raw Python set is unspecified, so the one place the source
  iterates a set directly (`", ".join(env_set)` in `build_cluster_report`)
  is modelled by an explicit enumeration parameter `set_iter`.
* The file system is a function `String → Option (List String)` from a path
  to the lines of the file (`read_text().splitlines()`), `None` when the
  file does not exist.  Warnings printed by the script are returned as data.
* String comparison (`sorted` on strings, list keys) is code-point
  lexicographic in Python; `str_lt`/`str_le` implement exactly that on
  `String.data`.
-/

set_option linter.unusedVariables false

/-- Strict lexicographic comparison of lists given a strict comparison on
elements; this is how Python compares two lists (and two strings). -/
def lex_lt {α : Type} [DecidableEq α] (lt : α → α → Bool) : List α → List α → Bool
  | [], [] => false
  | [], _ :: _ => true
  | _ :: _, [] => false
  | a :: as, b :: bs => if lt a b then true else if a = b then lex_lt lt as bs else false

/-- Strict comparison of characters by code point, as in Python. -/
def char_lt (c d : Char) : Bool := decide (c < d)

/-- Python's `<` on strings: code-point lexicographic. -/
def str_lt (a b : String) : Bool := lex_lt char_lt a.data b.data

/-- Python's `<=` on strings. -/
def str_le (a b : String) : Bool := str_lt a b || a == b

/-- Python's `<` on lists of strings (used for sort keys `sorted(env_set)`). -/
def strlist_lt (a b : List String) : Bool := lex_lt str_lt a b

/-- Python's `<=` on lists of strings. -/
def strlist_le (a b : List String) : Bool := strlist_lt a b || a == b

/-- Insertion of an element into a list, after all elements `le`-below-or-equal
to it.  Folding this over a list is a stable sort, which is the behaviour
Python's `sorted` guarantees. -/
def ins {α : Type} (le : α → α → Bool) (a : α) : List α → List α
  | [] => [a]
  | b :: t => if le b a then b :: ins le a t else a :: b :: t

/-- Python's `sorted(l)` for a total `le`: a stable sort. -/
def py_sorted {α : Type} (le : α → α → Bool) (l : List α) : List α :=
  l.foldl (fun acc x => ins le x acc) []

/-- Python `set.add` on the canonical strictly-sorted-list representation of
a set of strings: inserts the value, keeping the list strictly sorted and
duplicate-free. -/
def sadd (v : String) : List String → List String
  | [] => [v]
  | b :: t => if str_lt v b then v :: b :: t else if v = b then b :: t else b :: sadd v t

/-- Python `d.get(k, default)` on an association list. -/
def dict_get {κ α : Type} [DecidableEq κ] (m : List (κ × α)) (k : κ) (d : α) : α :=
  match m with
  | [] => d
  | (k', v) :: t => if k = k' then v else dict_get t k d

/-- Python `d[k] = v` on an association list: overwrite in place if the key
exists, else append at the end (dict insertion order). -/
def dict_set {κ α : Type} [DecidableEq κ] (m : List (κ × α)) (k : κ) (v : α) : List (κ × α) :=
  match m with
  | [] => [(k, v)]
  | (k', v') :: t => if k = k' then (k', v) :: t else (k', v') :: dict_set t k v

/-- Python `d.update(new)` on association lists. -/
def dict_update {κ α : Type} [DecidableEq κ] (m new : List (κ × α)) : List (κ × α) :=
  new.foldl (fun acc p => dict_set acc p.1 p.2) m

/-- Python `d.setdefault(k, set()).add(v)` for a dict of string sets. -/
def setdefault_add {κ : Type} [DecidableEq κ] (m : List (κ × List String)) (k : κ)
    (v : String) : List (κ × List String) :=
  match m with
  | [] => [(k, sadd v [])]
  | (k', s) :: t => if k = k' then (k', sadd v s) :: t else (k', s) :: setdefault_add t k v

/-- Grouping a list of (key, value) pairs into a dict of value sets by
repeated `setdefault(k, set()).add(v)`, in order. -/
def group_pairs {κ : Type} [DecidableEq κ] (l : List (κ × String)) : List (κ × List String) :=
  l.foldl (fun acc p => setdefault_add acc p.1 p.2) []

/-- Characters treated as whitespace by Python's `str.strip`, `str.split`
and the regex class `\s` (for the ASCII range relevant here). -/
def py_isspace (c : Char) : Bool :=
  c == ' ' || c == '\t' || c == '\n' || c == '\r' || c == '\x0b' || c == '\x0c'

/-- Python `str.strip()`. -/
def py_strip (s : String) : String :=
  String.mk (((s.data.dropWhile py_isspace).reverse.dropWhile py_isspace).reverse)

/-- Python `str.rstrip()`. -/
def py_rstrip (s : String) : String :=
  String.mk ((s.data.reverse.dropWhile py_isspace).reverse)

/-- Python `s.startswith(pre)`. -/
def py_startswith (s pre : String) : Bool := pre.data.isPrefixOf s.data

/-- Containment of a pattern as a contiguous sublist. -/
def list_is_infix (pat : List Char) : List Char → Bool
  | [] => pat.isEmpty
  | a :: t => pat.isPrefixOf (a :: t) || list_is_infix pat t

/-- Python `pat in s` for strings: substring containment. -/
def py_in (pat s : String) : Bool := list_is_infix pat.data s.data

/-- Python `s.lower()` (ASCII case folding; package names and environment
names handled by the script are ASCII). -/
def py_lower (s : String) : String := String.mk (s.data.map Char.toLower)

/-- Python `sep.join(l)`. -/
def join_sep (sep : String) : List String → String
  | [] => ""
  | [x] => x
  | x :: y :: t => x ++ sep ++ join_sep sep (y :: t)

/-- Python `s.split(maxsplit=1)` with default (whitespace) separator:
strip leading whitespace; first whitespace-free token; remainder after the
separating whitespace run, kept verbatim, when non-empty. -/
def py_split_max1 (s : String) : List String :=
  let l := s.data.dropWhile py_isspace
  if l = [] then []
  else
    let tok := l.takeWhile (fun c => !py_isspace c)
    let rest := (l.dropWhile (fun c => !py_isspace c)).dropWhile py_isspace
    if rest = [] then [String.mk tok] else [String.mk tok, String.mk rest]

/-- Source `normalize_pkg`: `name.lower().replace("-", "_")`. -/
def normalize_pkg (name : String) : String :=
  String.mk ((name.data.map Char.toLower).map (fun c => if c = '-' then '_' else c))

/-- Characters of the regex class `[A-Za-z0-9_.-]` in `REQ_LINE_RE`. -/
def is_name_char (c : Char) : Bool := c.isAlphanum || c == '_' || c == '.' || c == '-'

/-- Source `REQ_LINE_RE.match(line)` for the pattern
`^\s*([A-Za-z0-9_.-]+)(?:==([^\s]+))?` under `re.match` semantics: an
unanchored-at-the-end prefix match; greedy name token, then an optional
`==version` with a non-empty whitespace-free version; on success returns the
captured name and optional version, ignoring any remaining text. -/
def req_line_match (line : String) : Option (String × Option String) :=
  let l := line.data.dropWhile py_isspace
  let name := l.takeWhile is_name_char
  if name = [] then none
  else
    match l.dropWhile is_name_char with
    | '=' :: '=' :: rest2 =>
        match rest2.takeWhile (fun c => !py_isspace c) with
        | [] => some (String.mk name, none)
        | v => some (String.mk name, some (String.mk v))
    | _ => some (String.mk name, none)

/-- Python truthiness of `version or "*"`: `None` and the empty string are
falsy and give the sentinel. -/
def py_or_star : Option String → String
  | none => "*"
  | some v => if v = "" then "*" else v

/-- Source `parse_requirements`: returns the parsed package map and the list
of warnings printed.  A missing file yields no packages; it is silently
ignored when the path looks like a placeholder (contains `<` or the word
`path`), otherwise a warning is emitted. -/
def parse_requirements (fs : String → Option (List String)) (req_path : String) :
    List (String × Option String) × List String :=
  match fs req_path with
  | none =>
      if py_in "<" req_path || py_in "path" req_path then ([], [])
      else ([], ["⚠️  requirements file not found: " ++ req_path])
  | some ls =>
      (ls.foldl (fun pkgs line0 =>
        let line := py_strip line0
        if line = "" || py_startswith line "#" then pkgs
        else
          match req_line_match line with
          | none => pkgs
          | some (name, version) => dict_set pkgs (normalize_pkg name) version) [], [])

/-- Entry of a `pip:` list in an environment definition: a string or some
other YAML value (ignored by the source). -/
inductive PipEntry where
  | str (s : String)
  | nonstr
deriving DecidableEq

/-- Entry of the `dependencies:` list: either a mapping carrying a `pip` key
with its list, or anything else (plain conda specs and other mappings are
ignored by the source). -/
inductive Dep where
  | scalar
  | pip (entries : List PipEntry)
deriving DecidableEq

/-- Parsed `environment.yml` contents relevant to the source: the optional
`name` field and the `dependencies` list. -/
structure EnvData where
  name : Option String
  dependencies : List Dep
deriving DecidableEq

/-- Resolution of `(env_dir / rel_path)`; `Path.resolve` normalisation is
not modelled, the file-system map is keyed by these joined paths. -/
def path_join (dir rel : String) : String := dir ++ "/" ++ rel

/-- Placeholder template environments skipped by `load_envs`. -/
def is_placeholder_name (n : String) : Bool :=
  py_lower n == "envname" || py_lower n == "template"

/-- Package map of one environment: `{package: version|None}`. -/
abbrev PkgMap := List (String × Option String)

/-- All loaded environments: `{env_name: {package: version|None}}`. -/
abbrev Envs := List (String × PkgMap)

/-- Loop body of `load_envs` over one `pip:` list.  A string entry starting
with `-r` is resolved via `parse_requirements` after
`entry.split(maxsplit=1)[1]`; when the split has no second element that index
access raises `IndexError`, modelled as `Except.error`. -/
def process_entries (fs : String → Option (List String)) (dir : String) :
    List PipEntry → PkgMap → Except String PkgMap
  | [], pkgs => .ok pkgs
  | .nonstr :: rest, pkgs => process_entries fs dir rest pkgs
  | .str s :: rest, pkgs =>
      if py_startswith s "-r" then
        match py_split_max1 s with
        | _ :: rel :: _ =>
            process_entries fs dir rest
              (dict_update pkgs (parse_requirements fs (path_join dir rel)).1)
        | _ => .error "IndexError: list index out of range"
      else process_entries fs dir rest pkgs

/-- Loop of `load_envs` over the `dependencies` list. -/
def process_deps (fs : String → Option (List String)) (dir : String) :
    List Dep → PkgMap → Except String PkgMap
  | [], pkgs => .ok pkgs
  | .scalar :: rest, pkgs => process_deps fs dir rest pkgs
  | .pip entries :: rest, pkgs =>
      match process_entries fs dir entries pkgs with
      | .error e => .error e
      | .ok pkgs' => process_deps fs dir rest pkgs'

/-- Loop of `load_envs` over discovered environment directories, with the
accumulated `envs` dict. -/
def load_envs_aux (fs : String → Option (List String)) :
    List (String × EnvData) → Envs → Except String Envs
  | [], acc => .ok acc
  | (dirName, data) :: rest, acc =>
      let env_name := data.name.getD dirName
      if is_placeholder_name env_name then load_envs_aux fs rest acc
      else
        match process_deps fs dirName data.dependencies [] with
        | .error e => .error e
        | .ok pkgs => load_envs_aux fs rest (dict_set acc env_name pkgs)

/-- Source `load_envs`: environments in discovery order; an unhandled
exception while processing any environment aborts the whole run. -/
def load_envs (fs : String → Option (List String)) (dirs : List (String × EnvData)) :
    Except String Envs :=
  load_envs_aux fs dirs []

/-- Source `collect_versions`: for every (package, version) of every
environment, add `version or "*"` to the set keyed by the package. -/
def collect_versions (envs : Envs) : List (String × List String) :=
  envs.foldl (fun acc e => e.2.foldl (fun a p => setdefault_add a p.1 (py_or_star p.2)) acc) []

/-- Flattened (package, recorded version) pairs, in iteration order;
`collect_versions` is exactly the grouping of these pairs. -/
def version_pairs (envs : Envs) : List (String × String) :=
  envs.flatMap (fun e => e.2.map (fun p => (p.1, py_or_star p.2)))

/-- First loop of `compute_clusters`: invert environments→packages into
package→set of environment names. -/
def pkg_to_envs (envs : Envs) : List (String × List String) :=
  envs.foldl (fun acc e => e.2.foldl (fun a p => setdefault_add a p.1 e.1) acc) []

/-- Flattened (package, declaring environment) pairs, in iteration order. -/
def decl_pairs (envs : Envs) : List (String × String) :=
  envs.flatMap (fun e => e.2.map (fun p => (p.1, e.1)))

/-- Second loop of `compute_clusters`: group packages by their environment
set.  The key `frozenset(sorted(env_set))` is the canonical sorted-list
representation, which is `env_set` itself here since `pkg_to_envs` maintains
its value sets canonically sorted. -/
def compute_clusters (envs : Envs) : List (List String × List String) :=
  (pkg_to_envs envs).foldl (fun acc pe => setdefault_add acc pe.2 pe.1) []

/-- Packages declared by at least one environment (with multiplicity;
membership is what the partition statements use). -/
def declared_pkgs (envs : Envs) : List String :=
  (decl_pairs envs).map Prod.fst

/-- Version set of a package across all environments:
`collect_versions(envs).get(pkg, set())`. -/
def version_set (envs : Envs) (pkg : String) : List String :=
  dict_get (collect_versions envs) pkg []

/-- Set of environments declaring a package:
`pkg_to_envs(envs).get(pkg, set())`. -/
def env_set_of (envs : Envs) (pkg : String) : List String :=
  dict_get (pkg_to_envs envs) pkg []

/-- Source `node_id`: `re.sub(r"[^A-Za-z0-9_]", "_", name)`. -/
def node_id (name : String) : String :=
  String.mk (name.data.map (fun c => if c.isAlphanum || c == '_' then c else '_'))

/-- Node label and drift flag computed by the package loop of
`build_mermaid`: the label appends `==v` for the smallest non-sentinel
version `v` when one exists, and the drift marker when the version set has
more than one element. -/
def render_pkg (versions : List (String × List String)) (pkg : String) : String × Bool :=
  let vset := dict_get versions pkg []
  let drift := decide (1 < vset.length)
  let versions_str := py_sorted str_le (vset.filter (fun v => !(v == "*")))
  let label :=
    match versions_str with
    | [] => pkg
    | v :: _ => pkg ++ "==" ++ v
  (if drift then label ++ " ⚠️" else label, drift)

/-- Sort key of `cluster_sort_key`: `(len(env_set), sorted(env_set))`. -/
def cluster_key (env_set : List String) : Nat × List String :=
  (env_set.length, py_sorted str_le env_set)

/-- Python tuple comparison of two cluster sort keys. -/
def key_le (a b : Nat × List String) : Bool :=
  decide (a.1 < b.1) || (decide (a.1 = b.1) && strlist_le a.2 b.2)

/-- Comparator used by `sorted(clusters.items(), key=cluster_sort_key)`. -/
def cluster_items_le (a b : List String × List String) : Bool :=
  key_le (cluster_key a.1) (cluster_key b.1)

/-- Comparator used by `sorted(clusters.keys(), key=...)` in the report. -/
def cluster_keys_le (a b : List String) : Bool :=
  key_le (cluster_key a) (cluster_key b)

/-- The cluster (env_set, packages) items in the order `build_mermaid`
renders them. -/
def sorted_cluster_items (clusters : List (List String × List String)) :
    List (List String × List String) :=
  py_sorted cluster_items_le clusters

/-- The cluster keys in the order `build_cluster_report` renders them. -/
def sorted_cluster_keys (keys : List (List String)) : List (List String) :=
  py_sorted cluster_keys_le keys

/-- Lines emitted for one cluster subgraph in `build_mermaid`. -/
def mermaid_cluster_block (versions : List (String × List String))
    (env_set pkgs : List String) : List String :=
  ("  subgraph " ++ node_id ("cluster_" ++ join_sep "_" (py_sorted str_le env_set))
      ++ "[\"" ++ join_sep " + " (py_sorted str_le env_set) ++ "\"]")
  :: ((py_sorted str_le pkgs).map (fun pkg =>
        "    " ++ node_id (render_pkg versions pkg).1 ++ "[" ++ (render_pkg versions pkg).1 ++ "]"))
  ++ ["  end\n"]

/-- Node identifiers collected into `drift_nodes` while rendering one
cluster: the drift-flagged packages, in rendering order. -/
def mermaid_drift_nodes (versions : List (String × List String))
    (pkgs : List String) : List String :=
  ((py_sorted str_le pkgs).filter (fun pkg => (render_pkg versions pkg).2)).map
    (fun pkg => node_id (render_pkg versions pkg).1)

/-- Body of `build_mermaid` given the version index and the sorted cluster
items: header, subgraph blocks, a blank line, then one style directive per
drift node. -/
def mermaid_from (versions : List (String × List String))
    (sorted_clusters : List (List String × List String)) : List String :=
  ("graph TD\n" :: sorted_clusters.flatMap (fun c => mermaid_cluster_block versions c.1 c.2))
  ++ [""]
  ++ (sorted_clusters.flatMap (fun c => mermaid_drift_nodes versions c.2)).map
      (fun node => "  style " ++ node ++ " fill:#ffe6e6,stroke:#ff0000,stroke-width:2px")

/-- Lines of the Mermaid graph produced by `build_mermaid`. -/
def build_mermaid_lines (envs : Envs) : List String :=
  mermaid_from (collect_versions envs) (sorted_cluster_items (compute_clusters envs))

/-- Source `build_mermaid`: the rendered graph text. -/
def build_mermaid (envs : Envs) : String :=
  join_sep "\n" (build_mermaid_lines envs)

/-- Lines of `build_cluster_report`.  The header of each section is
`", ".join(env_set)` over the raw frozenset, whose iteration order is
unspecified in the source language; `set_iter` is that enumeration. -/
def report_lines (set_iter : List String → List String)
    (clusters : List (List String × List String)) : List String :=
  "📦 Dependency Clusters\n"
  :: (sorted_cluster_keys (clusters.map Prod.fst)).flatMap (fun env_set =>
      ("[" ++ join_sep ", " (set_iter env_set) ++ "]")
      :: ((py_sorted str_le (dict_get clusters env_set [])).map (fun pkg => "  - " ++ pkg))
      ++ [""])

/-- Source `build_cluster_report`: joined lines, right-stripped, with a
trailing newline. -/
def build_cluster_report (set_iter : List String → List String)
    (clusters : List (List String × List String)) : String :=
  py_rstrip (join_sep "\n" (report_lines set_iter clusters)) ++ "\n"

/-- One possible enumeration of a set: its elements in reverse sorted
order.  CPython's set iteration order is hash-table order and, with string
hash randomisation, is not guaranteed to be sorted. -/
def rev_set_iter (s : List String) : List String := (py_sorted str_le s).reverse

/-- An enumeration function is a valid model of set iteration when it lists
exactly the elements of the set, each once. -/
def valid_set_iter (f : List String → List String) : Prop :=
  ∀ s : List String, List.Perm (f s) s

/-- Canonical character used by `normalize_pkg`: lower-case, with the
hyphen/underscore separators identified. -/
def char_canon (c : Char) : Char :=
  if c.toLower = '-' then '_' else c.toLower

/-- Two package names differ only in letter case or in
hyphen-versus-underscore separators. -/
def case_sep_variants (a b : String) : Prop :=
  a.data.map char_canon = b.data.map char_canon

/-! Infrastructure lemmas: lexicographic comparators. -/

theorem lex_lt_cons {α : Type} [DecidableEq α] (lt : α → α → Bool) (a b : α) (as bs : List α) :
    lex_lt lt (a :: as) (b :: bs) = true ↔
      (lt a b = true ∨ (a = b ∧ lex_lt lt as bs = true)) := by
  simp only [lex_lt]
  split_ifs with h1 h2 <;> simp_all

theorem lex_lt_irrefl {α : Type} [DecidableEq α] (lt : α → α → Bool)
    (hirr : ∀ a, lt a a = false) : ∀ l, lex_lt lt l l = false := by
  intro l
  induction l with
  | nil => rfl
  | cons a t ih => simp [lex_lt, hirr a, ih]

theorem lex_lt_trans {α : Type} [DecidableEq α] (lt : α → α → Bool)
    (htrans : ∀ a b c, lt a b = true → lt b c = true → lt a c = true) :
    ∀ x y z, lex_lt lt x y = true → lex_lt lt y z = true → lex_lt lt x z = true := by
  intro x
  induction x with
  | nil =>
    intro y z hxy hyz
    cases y with
    | nil => simp [lex_lt] at hxy
    | cons b bs =>
      cases z with
      | nil => simp [lex_lt] at hyz
      | cons c cs => simp [lex_lt]
  | cons a as ih =>
    intro y z hxy hyz
    cases y with
    | nil => simp [lex_lt] at hxy
    | cons b bs =>
      cases z with
      | nil => simp [lex_lt] at hyz
      | cons c cs =>
        rw [lex_lt_cons] at hxy hyz ⊢
        rcases hxy with h1 | ⟨rfl, h1⟩
        · rcases hyz with h2 | ⟨rfl, h2⟩
          · exact Or.inl (htrans _ _ _ h1 h2)
          · exact Or.inl h1
        · rcases hyz with h2 | ⟨rfl, h2⟩
          · exact Or.inl h2
          · exact Or.inr ⟨rfl, ih _ _ h1 h2⟩

theorem lex_lt_asymm {α : Type} [DecidableEq α] (lt : α → α → Bool)
    (hirr : ∀ a, lt a a = false)
    (htrans : ∀ a b c, lt a b = true → lt b c = true → lt a c = true)
    (x y : List α) : lex_lt lt x y = true → lex_lt lt y x = true → False := by
  intro h1 h2
  have h3 := lex_lt_trans lt htrans x y x h1 h2
  simp [lex_lt_irrefl lt hirr x] at h3

theorem lex_lt_tri {α : Type} [DecidableEq α] (lt : α → α → Bool)
    (htri : ∀ a b, lt a b = true ∨ a = b ∨ lt b a = true) :
    ∀ x y, lex_lt lt x y = true ∨ x = y ∨ lex_lt lt y x = true := by
  intro x
  induction x with
  | nil =>
    intro y
    cases y <;> simp [lex_lt]
  | cons a as ih =>
    intro y
    cases y with
    | nil => simp [lex_lt]
    | cons b bs =>
      rcases htri a b with h | rfl | h
      · exact Or.inl (by rw [lex_lt_cons]; exact Or.inl h)
      · rcases ih bs with h2 | rfl | h2
        · exact Or.inl (by rw [lex_lt_cons]; exact Or.inr ⟨rfl, h2⟩)
        · exact Or.inr (Or.inl rfl)
        · exact Or.inr (Or.inr (by rw [lex_lt_cons]; exact Or.inr ⟨rfl, h2⟩))
      · exact Or.inr (Or.inr (by rw [lex_lt_cons]; exact Or.inl h))

theorem char_lt_irrefl (c : Char) : char_lt c c = false := by simp [char_lt]

theorem char_lt_trans (a b c : Char) :
    char_lt a b = true → char_lt b c = true → char_lt a c = true := by
  simp only [char_lt, decide_eq_true_eq]
  exact fun h1 h2 => lt_trans h1 h2

theorem char_lt_tri (a b : Char) : char_lt a b = true ∨ a = b ∨ char_lt b a = true := by
  simp only [char_lt, decide_eq_true_eq]
  exact lt_trichotomy a b

theorem string_data_inj {a b : String} (h : a.data = b.data) : a = b := by
  cases a
  cases b
  exact congrArg String.mk (by simpa using h)

theorem str_lt_irrefl (s : String) : str_lt s s = false :=
  lex_lt_irrefl char_lt char_lt_irrefl s.data

theorem str_lt_trans (a b c : String) :
    str_lt a b = true → str_lt b c = true → str_lt a c = true :=
  lex_lt_trans char_lt char_lt_trans a.data b.data c.data

theorem str_lt_asymm (a b : String) : str_lt a b = true → str_lt b a = true → False :=
  lex_lt_asymm char_lt char_lt_irrefl char_lt_trans a.data b.data

theorem str_lt_tri (a b : String) : str_lt a b = true ∨ a = b ∨ str_lt b a = true := by
  rcases lex_lt_tri char_lt char_lt_tri a.data b.data with h | h | h
  · exact Or.inl h
  · exact Or.inr (Or.inl (string_data_inj h))
  · exact Or.inr (Or.inr h)

theorem str_le_refl (a : String) : str_le a a = true := by simp [str_le]

theorem str_le_of_lt (a b : String) (h : str_lt a b = true) : str_le a b = true := by
  simp [str_le, h]

theorem str_le_iff (a b : String) : str_le a b = true ↔ str_lt a b = true ∨ a = b := by
  simp [str_le, Bool.or_eq_true, beq_iff_eq]

theorem str_le_total (a b : String) : str_le a b = true ∨ str_le b a = true := by
  rcases str_lt_tri a b with h | rfl | h
  · exact Or.inl (str_le_of_lt a b h)
  · exact Or.inl (str_le_refl a)
  · exact Or.inr (str_le_of_lt b a h)

theorem str_le_trans (a b c : String) :
    str_le a b = true → str_le b c = true → str_le a c = true := by
  rw [str_le_iff, str_le_iff, str_le_iff]
  rintro (h1 | rfl) (h2 | rfl)
  · exact Or.inl (str_lt_trans a b c h1 h2)
  · exact Or.inl h1
  · exact Or.inl h2
  · exact Or.inr rfl

theorem str_le_antisymm (a b : String) :
    str_le a b = true → str_le b a = true → a = b := by
  rw [str_le_iff, str_le_iff]
  rintro (h1 | h1) (h2 | h2)
  · exact absurd h2 (fun h2 => str_lt_asymm a b h1 h2)
  · exact h2.symm
  · exact h1
  · exact h1

theorem str_lt_of_not_le (a b : String) (h : ¬ str_le b a = true) : str_lt a b = true := by
  rcases str_lt_tri a b with h1 | rfl | h1
  · exact h1
  · exact absurd (str_le_refl a) h
  · exact absurd (str_le_of_lt b a h1) h

theorem strlist_lt_irrefl (l : List String) : strlist_lt l l = false :=
  lex_lt_irrefl str_lt str_lt_irrefl l

theorem strlist_lt_trans (a b c : List String) :
    strlist_lt a b = true → strlist_lt b c = true → strlist_lt a c = true :=
  lex_lt_trans str_lt str_lt_trans a b c

theorem strlist_lt_asymm (a b : List String) :
    strlist_lt a b = true → strlist_lt b a = true → False :=
  lex_lt_asymm str_lt str_lt_irrefl str_lt_trans a b

theorem strlist_lt_tri (a b : List String) :
    strlist_lt a b = true ∨ a = b ∨ strlist_lt b a = true :=
  lex_lt_tri str_lt str_lt_tri a b

theorem strlist_le_iff (a b : List String) :
    strlist_le a b = true ↔ strlist_lt a b = true ∨ a = b := by
  simp [strlist_le, Bool.or_eq_true, beq_iff_eq]

theorem strlist_le_total (a b : List String) :
    strlist_le a b = true ∨ strlist_le b a = true := by
  rw [strlist_le_iff, strlist_le_iff]
  rcases strlist_lt_tri a b with h | rfl | h
  · exact Or.inl (Or.inl h)
  · exact Or.inl (Or.inr rfl)
  · exact Or.inr (Or.inl h)

theorem strlist_le_trans (a b c : List String) :
    strlist_le a b = true → strlist_le b c = true → strlist_le a c = true := by
  rw [strlist_le_iff, strlist_le_iff, strlist_le_iff]
  rintro (h1 | rfl) (h2 | rfl)
  · exact Or.inl (strlist_lt_trans a b c h1 h2)
  · exact Or.inl h1
  · exact Or.inl h2
  · exact Or.inr rfl

theorem strlist_le_antisymm (a b : List String) :
    strlist_le a b = true → strlist_le b a = true → a = b := by
  rw [strlist_le_iff, strlist_le_iff]
  rintro (h1 | h1) (h2 | h2)
  · exact absurd h2 (fun h2 => strlist_lt_asymm a b h1 h2)
  · exact h2.symm
  · exact h1
  · exact h1

theorem key_le_iff (a b : Nat × List String) :
    key_le a b = true ↔ a.1 < b.1 ∨ (a.1 = b.1 ∧ strlist_le a.2 b.2 = true) := by
  simp [key_le, Bool.or_eq_true, Bool.and_eq_true, decide_eq_true_eq]

theorem key_le_total (a b : Nat × List String) : key_le a b = true ∨ key_le b a = true := by
  rw [key_le_iff, key_le_iff]
  rcases Nat.lt_trichotomy a.1 b.1 with h | h | h
  · exact Or.inl (Or.inl h)
  · rcases strlist_le_total a.2 b.2 with h2 | h2
    · exact Or.inl (Or.inr ⟨h, h2⟩)
    · exact Or.inr (Or.inr ⟨h.symm, h2⟩)
  · exact Or.inr (Or.inl h)

theorem key_le_trans (a b c : Nat × List String) :
    key_le a b = true → key_le b c = true → key_le a c = true := by
  rw [key_le_iff, key_le_iff, key_le_iff]
  rintro (h1 | ⟨h1, h1'⟩) (h2 | ⟨h2, h2'⟩)
  · exact Or.inl (Nat.lt_trans h1 h2)
  · exact Or.inl (h2 ▸ h1)
  · exact Or.inl (h1 ▸ h2)
  · exact Or.inr ⟨h1.trans h2, strlist_le_trans _ _ _ h1' h2'⟩

theorem key_le_antisymm (a b : Nat × List String) :
    key_le a b = true → key_le b a = true → a = b := by
  rw [key_le_iff, key_le_iff]
  rintro (h1 | ⟨h1, h1'⟩) (h2 | ⟨h2, h2'⟩)
  · exact absurd (Nat.lt_trans h1 h2) (Nat.lt_irrefl a.1)
  · exact absurd h1 (h2 ▸ Nat.lt_irrefl a.1)
  · exact absurd h2 (h1 ▸ Nat.lt_irrefl b.1)
  · exact Prod.ext h1 (strlist_le_antisymm _ _ h1' h2')

/-! Infrastructure lemmas: stable insertion sort (`py_sorted`). -/

theorem ins_perm {α : Type} (le : α → α → Bool) (a : α) :
    ∀ l : List α, List.Perm (ins le a l) (a :: l) := by
  intro l
  induction l with
  | nil => simp [ins]
  | cons b t ih =>
    simp only [ins]
    split
    · exact (ih.cons b).trans (List.Perm.swap a b t)
    · exact List.Perm.refl _

theorem py_sorted_perm_aux {α : Type} (le : α → α → Bool) :
    ∀ (l acc : List α),
      List.Perm (l.foldl (fun acc x => ins le x acc) acc) (l ++ acc) := by
  intro l
  induction l with
  | nil => intro acc; simp
  | cons x t ih =>
    intro acc
    simp only [List.foldl_cons, List.cons_append]
    exact (ih (ins le x acc)).trans (((ins_perm le x acc).append_left t).trans List.perm_middle)

theorem py_sorted_perm {α : Type} (le : α → α → Bool) (l : List α) :
    List.Perm (py_sorted le l) l := by
  have h := py_sorted_perm_aux le l []
  simpa [py_sorted] using h

theorem py_sorted_mem {α : Type} (le : α → α → Bool) (l : List α) (x : α) :
    x ∈ py_sorted le l ↔ x ∈ l :=
  (py_sorted_perm le l).mem_iff

theorem ins_pairwise {α : Type} (le : α → α → Bool)
    (htot : ∀ x y, le x y = true ∨ le y x = true)
    (htrans : ∀ x y z, le x y = true → le y z = true → le x z = true)
    (a : α) : ∀ l : List α, l.Pairwise (fun x y => le x y = true) →
      (ins le a l).Pairwise (fun x y => le x y = true) := by
  intro l
  induction l with
  | nil => intro _; simp [ins]
  | cons b t ih =>
    intro hp
    rcases List.pairwise_cons.mp hp with ⟨hb, ht⟩
    simp only [ins]
    split
    · rename_i hba
      refine List.pairwise_cons.mpr ⟨?_, ih ht⟩
      intro x hx
      rcases List.mem_cons.mp ((ins_perm le a t).mem_iff.mp hx) with rfl | hxt
      · exact hba
      · exact hb x hxt
    · rename_i hba
      have hab : le a b = true := by
        rcases htot a b with h | h
        · exact h
        · exact absurd h hba
      refine List.pairwise_cons.mpr ⟨?_, hp⟩
      intro x hx
      rcases List.mem_cons.mp hx with rfl | hxt
      · exact hab
      · exact htrans a b x hab (hb x hxt)

theorem py_sorted_pairwise_aux {α : Type} (le : α → α → Bool)
    (htot : ∀ x y, le x y = true ∨ le y x = true)
    (htrans : ∀ x y z, le x y = true → le y z = true → le x z = true) :
    ∀ (l acc : List α), acc.Pairwise (fun x y => le x y = true) →
      (l.foldl (fun acc x => ins le x acc) acc).Pairwise (fun x y => le x y = true) := by
  intro l
  induction l with
  | nil => intro acc h; simpa using h
  | cons x t ih =>
    intro acc h
    simp only [List.foldl_cons]
    exact ih (ins le x acc) (ins_pairwise le htot htrans x acc h)

theorem py_sorted_pairwise {α : Type} (le : α → α → Bool)
    (htot : ∀ x y, le x y = true ∨ le y x = true)
    (htrans : ∀ x y z, le x y = true → le y z = true → le x z = true)
    (l : List α) : (py_sorted le l).Pairwise (fun x y => le x y = true) :=
  py_sorted_pairwise_aux le htot htrans l [] (by simp)

/-- Two lists that are permutations of each other and both sorted for a
relation antisymmetric across them are equal.  This is the uniqueness of
sorted output used to compare the two renderers and two discovery orders. -/
theorem eq_of_perm_of_pairwise {α : Type} {R : α → α → Prop} :
    ∀ (l₁ l₂ : List α), List.Perm l₁ l₂ → l₁.Pairwise R → l₂.Pairwise R →
      (∀ a, a ∈ l₁ → ∀ b, b ∈ l₂ → R a b → R b a → a = b) → l₁ = l₂ := by
  intro l₁
  induction l₁ with
  | nil =>
    intro l₂ hperm _ _ _
    exact (hperm.symm.eq_nil).symm ▸ rfl
  | cons a t₁ ih =>
    intro l₂ hperm hp₁ hp₂ hanti
    cases l₂ with
    | nil => exact absurd hperm.eq_nil (by simp)
    | cons b t₂ =>
      have hab : a = b := by
        by_contra hne
        have ha2 : a ∈ b :: t₂ := hperm.mem_iff.mp (List.mem_cons_self a t₁)
        have hb1 : b ∈ a :: t₁ := hperm.mem_iff.mpr (List.mem_cons_self b t₂)
        have hat2 : a ∈ t₂ := by
          rcases List.mem_cons.mp ha2 with h | h
          · exact absurd h hne
          · exact h
        have hbt1 : b ∈ t₁ := by
          rcases List.mem_cons.mp hb1 with h | h
          · exact absurd h.symm hne
          · exact h
        have hRab : R a b := (List.pairwise_cons.mp hp₁).1 b hbt1
        have hRba : R b a := (List.pairwise_cons.mp hp₂).1 a hat2
        exact hne (hanti a (List.mem_cons_self a t₁) b (List.mem_cons_self b t₂) hRab hRba)
      subst hab
      have htails : t₁ = t₂ :=
        ih t₂ hperm.cons_inv (List.pairwise_cons.mp hp₁).2 (List.pairwise_cons.mp hp₂).2
          (fun x hx y hy => hanti x (List.mem_cons_of_mem a hx) y (List.mem_cons_of_mem a hy))
      rw [htails]

/-- Re-sorting an already strictly sorted list is the identity (used for the
canonical sorted-list representation of Python sets). -/
theorem py_sorted_eq_self (l : List String)
    (hs : l.Pairwise (fun x y => str_lt x y = true)) : py_sorted str_le l = l := by
  refine eq_of_perm_of_pairwise (py_sorted str_le l) l (py_sorted_perm str_le l)
    (py_sorted_pairwise str_le str_le_total str_le_trans l) ?_ ?_
  · exact hs.imp (fun h => str_le_of_lt _ _ h)
  · exact fun a _ b _ h1 h2 => str_le_antisymm a b h1 h2

/-! Infrastructure lemmas: canonical set representation (`sadd`). -/

theorem sadd_mem (v x : String) : ∀ l, x ∈ sadd v l ↔ x = v ∨ x ∈ l := by
  intro l
  induction l with
  | nil => simp [sadd]
  | cons b t ih =>
    simp only [sadd]
    split_ifs with h1 h2
    · simp [List.mem_cons]
    · subst h2
      simp [List.mem_cons]
    · simp only [List.mem_cons, ih]
      tauto

theorem sadd_ne_nil (v : String) : ∀ l, sadd v l ≠ [] := by
  intro l
  cases l with
  | nil => simp [sadd]
  | cons b t =>
    simp only [sadd]
    split_ifs <;> simp

theorem sadd_pairwise (v : String) :
    ∀ l, l.Pairwise (fun a b => str_lt a b = true) →
      (sadd v l).Pairwise (fun a b => str_lt a b = true) := by
  intro l
  induction l with
  | nil => intro _; simp [sadd]
  | cons b t ih =>
    intro hp
    rcases List.pairwise_cons.mp hp with ⟨hb, ht⟩
    simp only [sadd]
    split_ifs with h1 h2
    · refine List.pairwise_cons.mpr ⟨?_, hp⟩
      intro x hx
      rcases List.mem_cons.mp hx with rfl | hxt
      · exact h1
      · exact str_lt_trans v b x h1 (hb x hxt)
    · exact hp
    · refine List.pairwise_cons.mpr ⟨?_, ih ht⟩
      intro x hx
      rcases (sadd_mem v x t).mp hx with rfl | hxt
      · rcases str_lt_tri x b with h | h | h
        · exact absurd h h1
        · exact absurd h h2
        · exact h
      · exact hb x hxt

/-- Extensionality for strictly sorted lists: equal membership means equal
lists. -/
theorem sorted_lt_ext : ∀ (l₁ l₂ : List String),
    l₁.Pairwise (fun a b => str_lt a b = true) →
    l₂.Pairwise (fun a b => str_lt a b = true) →
    (∀ x, x ∈ l₁ ↔ x ∈ l₂) → l₁ = l₂ := by
  intro l₁
  induction l₁ with
  | nil =>
    intro l₂ _ _ hmem
    cases l₂ with
    | nil => rfl
    | cons b t => exact absurd ((hmem b).mpr (List.mem_cons_self b t)) (by simp)
  | cons a t₁ ih =>
    intro l₂ hp₁ hp₂ hmem
    cases l₂ with
    | nil => exact absurd ((hmem a).mp (List.mem_cons_self a t₁)) (by simp)
    | cons b t₂ =>
      rcases List.pairwise_cons.mp hp₁ with ⟨ha, ht₁⟩
      rcases List.pairwise_cons.mp hp₂ with ⟨hbp, ht₂⟩
      have hab : a = b := by
        by_contra hne
        have hat2 : a ∈ t₂ := by
          rcases List.mem_cons.mp ((hmem a).mp (List.mem_cons_self a t₁)) with h | h
          · exact absurd h hne
          · exact h
        have hbt1 : b ∈ t₁ := by
          rcases List.mem_cons.mp ((hmem b).mpr (List.mem_cons_self b t₂)) with h | h
          · exact absurd h.symm hne
          · exact h
        exact str_lt_asymm a b (ha b hbt1) (hbp a hat2)
      subst hab
      have htails : t₁ = t₂ := by
        refine ih t₂ ht₁ ht₂ ?_
        intro x
        constructor
        · intro hx
          have hax : str_lt a x = true := ha x hx
          rcases List.mem_cons.mp ((hmem x).mp (List.mem_cons_of_mem a hx)) with rfl | h
          · simp [str_lt_irrefl x] at hax
          · exact h
        · intro hx
          have hax : str_lt a x = true := hbp x hx
          rcases List.mem_cons.mp ((hmem x).mpr (List.mem_cons_of_mem a hx)) with rfl | h
          · simp [str_lt_irrefl x] at hax
          · exact h
      rw [htails]

/-! Infrastructure lemmas: association lists and grouping folds. -/

theorem exists_pair_mem_cons {κ : Type} (p : κ × List String) (t : List (κ × List String))
    (k' : κ) (x : String) :
    (∃ s, (k', s) ∈ p :: t ∧ x ∈ s) ↔
      (k' = p.1 ∧ x ∈ p.2) ∨ (∃ s, (k', s) ∈ t ∧ x ∈ s) := by
  obtain ⟨a, b⟩ := p
  constructor
  · rintro ⟨s, hs, hx⟩
    rcases List.mem_cons.mp hs with h | h
    · rcases Prod.mk.injEq .. ▸ h with ⟨rfl, rfl⟩
      exact Or.inl ⟨rfl, hx⟩
    · exact Or.inr ⟨s, h, hx⟩
  · rintro (⟨rfl, hx⟩ | ⟨s, hs, hx⟩)
    · exact ⟨b, List.mem_cons_self _ _, hx⟩
    · exact ⟨s, List.mem_cons_of_mem _ hs, hx⟩

theorem setdefault_add_mem {κ : Type} [DecidableEq κ] (k : κ) (v : String) (k' : κ) (x : String) :
    ∀ m : List (κ × List String),
      (∃ s, (k', s) ∈ setdefault_add m k v ∧ x ∈ s) ↔
        ((k' = k ∧ x = v) ∨ (∃ s, (k', s) ∈ m ∧ x ∈ s)) := by
  intro m
  induction m with
  | nil =>
    simp only [setdefault_add]
    rw [exists_pair_mem_cons]
    simp [sadd_mem]
  | cons p t ih =>
    obtain ⟨a, b⟩ := p
    simp only [setdefault_add]
    split_ifs with h
    · subst h
      rw [exists_pair_mem_cons, exists_pair_mem_cons]
      simp only [sadd_mem]
      tauto
    · rw [exists_pair_mem_cons, exists_pair_mem_cons, ih]
      tauto

theorem setdefault_add_keys {κ : Type} [DecidableEq κ] (k : κ) (v : String) :
    ∀ m : List (κ × List String),
      (setdefault_add m k v).map Prod.fst =
        if k ∈ m.map Prod.fst then m.map Prod.fst else m.map Prod.fst ++ [k] := by
  intro m
  induction m with
  | nil => simp [setdefault_add]
  | cons p t ih =>
    obtain ⟨a, b⟩ := p
    by_cases h : k = a
    · subst h
      simp [setdefault_add]
    · by_cases hk : k ∈ t.map Prod.fst
      · have hcond : k ∈ ((a, b) :: t).map Prod.fst := by simp [hk]
        rw [if_pos hcond]
        simp only [setdefault_add]
        rw [if_neg h]
        simp only [List.map_cons]
        rw [ih, if_pos hk]
      · have hcond : k ∉ ((a, b) :: t).map Prod.fst := by
          simp only [List.map_cons, List.mem_cons]
          rintro (hka | hkt)
          · exact h hka
          · exact hk hkt
        rw [if_neg hcond]
        simp only [setdefault_add]
        rw [if_neg h]
        simp only [List.map_cons]
        rw [ih, if_neg hk]
        simp

theorem setdefault_add_key_mem {κ : Type} [DecidableEq κ] (k : κ) (v : String) (k' : κ)
    (m : List (κ × List String)) :
    k' ∈ (setdefault_add m k v).map Prod.fst ↔ (k' = k ∨ k' ∈ m.map Prod.fst) := by
  rw [setdefault_add_keys]
  split_ifs with h
  · constructor
    · exact fun hh => Or.inr hh
    · rintro (rfl | hh)
      · exact h
      · exact hh
  · simp only [List.mem_append, List.mem_singleton]
    tauto

theorem setdefault_add_keys_nodup {κ : Type} [DecidableEq κ] (k : κ) (v : String)
    (m : List (κ × List String)) (h : (m.map Prod.fst).Nodup) :
    ((setdefault_add m k v).map Prod.fst).Nodup := by
  rw [setdefault_add_keys]
  split_ifs with hk
  · exact h
  · rw [List.nodup_append]
    exact ⟨h, List.nodup_singleton k, by intro a ha hb; simp at hb; subst hb; exact hk ha⟩

theorem setdefault_add_values {κ : Type} [DecidableEq κ] (k : κ) (v : String)
    (m : List (κ × List String))
    (h : ∀ p ∈ m, p.2.Pairwise (fun a b => str_lt a b = true) ∧ p.2 ≠ []) :
    ∀ p ∈ setdefault_add m k v,
      p.2.Pairwise (fun a b => str_lt a b = true) ∧ p.2 ≠ [] := by
  induction m with
  | nil =>
    intro p hp
    simp only [setdefault_add, List.mem_singleton] at hp
    subst hp
    exact ⟨sadd_pairwise v [] (by simp), sadd_ne_nil v []⟩
  | cons q t ih =>
    obtain ⟨a, b⟩ := q
    intro p hp
    simp only [setdefault_add] at hp
    split_ifs at hp with hk
    · rcases List.mem_cons.mp hp with rfl | hpt
      · have hb := h (a, b) (List.mem_cons_self _ _)
        exact ⟨sadd_pairwise v b hb.1, sadd_ne_nil v b⟩
      · exact h p (List.mem_cons_of_mem _ hpt)
    · rcases List.mem_cons.mp hp with rfl | hpt
      · exact h (a, b) (List.mem_cons_self _ _)
      · exact ih (fun q hq => h q (List.mem_cons_of_mem _ hq)) p hpt

theorem group_fold_mem {κ : Type} [DecidableEq κ] :
    ∀ (l : List (κ × String)) (acc : List (κ × List String)) (k : κ) (x : String),
      (∃ s, (k, s) ∈ l.foldl (fun acc p => setdefault_add acc p.1 p.2) acc ∧ x ∈ s) ↔
        ((k, x) ∈ l ∨ ∃ s, (k, s) ∈ acc ∧ x ∈ s) := by
  intro l
  induction l with
  | nil => simp
  | cons p t ih =>
    intro acc k x
    simp only [List.foldl_cons]
    rw [ih, setdefault_add_mem]
    simp only [List.mem_cons, Prod.ext_iff]
    tauto

theorem group_fold_key_mem {κ : Type} [DecidableEq κ] :
    ∀ (l : List (κ × String)) (acc : List (κ × List String)) (k : κ),
      k ∈ (l.foldl (fun acc p => setdefault_add acc p.1 p.2) acc).map Prod.fst ↔
        (k ∈ l.map Prod.fst ∨ k ∈ acc.map Prod.fst) := by
  intro l
  induction l with
  | nil => simp
  | cons p t ih =>
    intro acc k
    simp only [List.foldl_cons]
    rw [ih, setdefault_add_key_mem]
    simp only [List.map_cons, List.mem_cons]
    tauto

theorem group_fold_keys_nodup {κ : Type} [DecidableEq κ] :
    ∀ (l : List (κ × String)) (acc : List (κ × List String)),
      ((acc.map Prod.fst).Nodup) →
      ((l.foldl (fun acc p => setdefault_add acc p.1 p.2) acc).map Prod.fst).Nodup := by
  intro l
  induction l with
  | nil => intro acc h; simpa using h
  | cons p t ih =>
    intro acc h
    simp only [List.foldl_cons]
    exact ih _ (setdefault_add_keys_nodup p.1 p.2 acc h)

theorem group_fold_values {κ : Type} [DecidableEq κ] :
    ∀ (l : List (κ × String)) (acc : List (κ × List String)),
      (∀ p ∈ acc, p.2.Pairwise (fun a b => str_lt a b = true) ∧ p.2 ≠ []) →
      ∀ p ∈ l.foldl (fun acc p => setdefault_add acc p.1 p.2) acc,
        p.2.Pairwise (fun a b => str_lt a b = true) ∧ p.2 ≠ [] := by
  intro l
  induction l with
  | nil => intro acc h; simpa using h
  | cons p t ih =>
    intro acc h
    simp only [List.foldl_cons]
    exact ih _ (setdefault_add_values p.1 p.2 acc h)

theorem dict_get_of_mem {κ α : Type} [DecidableEq κ] :
    ∀ (m : List (κ × α)) (k : κ) (v : α) (d : α),
      (m.map Prod.fst).Nodup → (k, v) ∈ m → dict_get m k d = v := by
  intro m
  induction m with
  | nil => intro k v d _ h; simp at h
  | cons p t ih =>
    obtain ⟨a, b⟩ := p
    intro k v d hnd hmem
    simp only [List.map_cons, List.nodup_cons] at hnd
    rcases List.mem_cons.mp hmem with h | h
    · rcases Prod.mk.injEq .. ▸ h with ⟨rfl, rfl⟩
      simp [dict_get]
    · have hka : k ≠ a := by
        rintro rfl
        exact hnd.1 (List.mem_map.mpr ⟨(k, v), h, rfl⟩)
      simp only [dict_get, if_neg hka]
      exact ih k v d hnd.2 h

theorem dict_get_not_mem {κ α : Type} [DecidableEq κ] :
    ∀ (m : List (κ × α)) (k : κ) (d : α), k ∉ m.map Prod.fst → dict_get m k d = d := by
  intro m
  induction m with
  | nil => intro k d _; rfl
  | cons p t ih =>
    obtain ⟨a, b⟩ := p
    intro k d h
    simp only [List.map_cons, List.mem_cons] at h
    push_neg at h
    simp only [dict_get, if_neg h.1]
    exact ih k d h.2

theorem nodup_keys_uniq {κ α : Type} [DecidableEq κ] (m : List (κ × α))
    (hnd : (m.map Prod.fst).Nodup) {k : κ} {a b : α}
    (ha : (k, a) ∈ m) (hb : (k, b) ∈ m) : a = b := by
  have h1 := dict_get_of_mem m k a a hnd ha
  have h2 := dict_get_of_mem m k b a hnd hb
  rw [h1] at h2
  exact h2

theorem mem_keys_iff {κ α : Type} [DecidableEq κ] (m : List (κ × α)) (k : κ) :
    k ∈ m.map Prod.fst ↔ ∃ v, (k, v) ∈ m := by
  rw [List.mem_map]
  constructor
  · rintro ⟨⟨k', v⟩, hm, rfl⟩
    exact ⟨v, hm⟩
  · rintro ⟨v, hm⟩
    exact ⟨(k, v), hm, rfl⟩

theorem dict_get_mem_iff {κ : Type} [DecidableEq κ] (m : List (κ × List String)) (k : κ)
    (hnd : (m.map Prod.fst).Nodup) (x : String) :
    x ∈ dict_get m k [] ↔ ∃ s, (k, s) ∈ m ∧ x ∈ s := by
  by_cases hk : k ∈ m.map Prod.fst
  · obtain ⟨v, hv⟩ := (mem_keys_iff m k).mp hk
    rw [dict_get_of_mem m k v [] hnd hv]
    constructor
    · intro hx
      exact ⟨v, hv, hx⟩
    · rintro ⟨s, hs, hx⟩
      rwa [nodup_keys_uniq m hnd hv hs]
  · rw [dict_get_not_mem m k [] hk]
    simp only [List.not_mem_nil, false_iff, not_exists]
    rintro s ⟨hs, _⟩
    exact hk ((mem_keys_iff m k).mpr ⟨s, hs⟩)

/-! Characterisation of the script's index-building folds. -/

theorem collect_versions_eq_fold :
    ∀ (envs : Envs) (acc : List (String × List String)),
      envs.foldl (fun acc e => e.2.foldl (fun a p => setdefault_add a p.1 (py_or_star p.2)) acc) acc
        = (version_pairs envs).foldl (fun acc p => setdefault_add acc p.1 p.2) acc := by
  intro envs
  induction envs with
  | nil => intro acc; simp [version_pairs]
  | cons e t ih =>
    intro acc
    have h1 : version_pairs (e :: t)
        = e.2.map (fun p => (p.1, py_or_star p.2)) ++ version_pairs t := by
      simp [version_pairs]
    rw [List.foldl_cons, ih, h1, List.foldl_append, List.foldl_map]

theorem collect_versions_spec (envs : Envs) :
    collect_versions envs
      = (version_pairs envs).foldl (fun acc p => setdefault_add acc p.1 p.2) [] :=
  collect_versions_eq_fold envs []

theorem pkg_to_envs_eq_fold :
    ∀ (envs : Envs) (acc : List (String × List String)),
      envs.foldl (fun acc e => e.2.foldl (fun a p => setdefault_add a p.1 e.1) acc) acc
        = (decl_pairs envs).foldl (fun acc p => setdefault_add acc p.1 p.2) acc := by
  intro envs
  induction envs with
  | nil => intro acc; simp [decl_pairs]
  | cons e t ih =>
    intro acc
    have h1 : decl_pairs (e :: t) = e.2.map (fun p => (p.1, e.1)) ++ decl_pairs t := by
      simp [decl_pairs]
    rw [List.foldl_cons, ih, h1, List.foldl_append, List.foldl_map]

theorem pkg_to_envs_spec (envs : Envs) :
    pkg_to_envs envs
      = (decl_pairs envs).foldl (fun acc p => setdefault_add acc p.1 p.2) [] :=
  pkg_to_envs_eq_fold envs []

theorem compute_clusters_spec (envs : Envs) :
    compute_clusters envs
      = ((pkg_to_envs envs).map (fun pe => (pe.2, pe.1))).foldl
          (fun acc p => setdefault_add acc p.1 p.2) [] := by
  rw [List.foldl_map]
  rfl

theorem collect_versions_keys_nodup (envs : Envs) :
    ((collect_versions envs).map Prod.fst).Nodup := by
  rw [collect_versions_spec]
  exact group_fold_keys_nodup _ [] (by simp)

theorem pkg_to_envs_keys_nodup (envs : Envs) :
    ((pkg_to_envs envs).map Prod.fst).Nodup := by
  rw [pkg_to_envs_spec]
  exact group_fold_keys_nodup _ [] (by simp)

theorem compute_clusters_keys_nodup (envs : Envs) :
    ((compute_clusters envs).map Prod.fst).Nodup := by
  rw [compute_clusters_spec]
  exact group_fold_keys_nodup _ [] (by simp)

theorem collect_versions_values (envs : Envs) :
    ∀ p ∈ collect_versions envs,
      p.2.Pairwise (fun a b => str_lt a b = true) ∧ p.2 ≠ [] := by
  rw [collect_versions_spec]
  exact group_fold_values _ [] (by simp)

theorem pkg_to_envs_values (envs : Envs) :
    ∀ p ∈ pkg_to_envs envs,
      p.2.Pairwise (fun a b => str_lt a b = true) ∧ p.2 ≠ [] := by
  rw [pkg_to_envs_spec]
  exact group_fold_values _ [] (by simp)

theorem compute_clusters_values (envs : Envs) :
    ∀ p ∈ compute_clusters envs,
      p.2.Pairwise (fun a b => str_lt a b = true) ∧ p.2 ≠ [] := by
  rw [compute_clusters_spec]
  exact group_fold_values _ [] (by simp)

theorem version_set_mem (envs : Envs) (pkg x : String) :
    x ∈ version_set envs pkg ↔ (pkg, x) ∈ version_pairs envs := by
  rw [version_set, dict_get_mem_iff _ _ (collect_versions_keys_nodup envs)]
  rw [collect_versions_spec, group_fold_mem]
  simp

theorem version_set_sorted (envs : Envs) (pkg : String) :
    (version_set envs pkg).Pairwise (fun a b => str_lt a b = true) := by
  by_cases h : pkg ∈ (collect_versions envs).map Prod.fst
  · obtain ⟨v, hv⟩ := (mem_keys_iff _ _).mp h
    rw [version_set, dict_get_of_mem _ _ _ _ (collect_versions_keys_nodup envs) hv]
    exact (collect_versions_values envs (pkg, v) hv).1
  · rw [version_set, dict_get_not_mem _ _ _ h]
    simp

theorem env_set_of_mem (envs : Envs) (pkg env : String) :
    env ∈ env_set_of envs pkg ↔ (pkg, env) ∈ decl_pairs envs := by
  rw [env_set_of, dict_get_mem_iff _ _ (pkg_to_envs_keys_nodup envs)]
  rw [pkg_to_envs_spec, group_fold_mem]
  simp

theorem env_set_of_sorted (envs : Envs) (pkg : String) :
    (env_set_of envs pkg).Pairwise (fun a b => str_lt a b = true) := by
  by_cases h : pkg ∈ (pkg_to_envs envs).map Prod.fst
  · obtain ⟨v, hv⟩ := (mem_keys_iff _ _).mp h
    rw [env_set_of, dict_get_of_mem _ _ _ _ (pkg_to_envs_keys_nodup envs) hv]
    exact (pkg_to_envs_values envs (pkg, v) hv).1
  · rw [env_set_of, dict_get_not_mem _ _ _ h]
    simp

theorem declared_iff_key (envs : Envs) (pkg : String) :
    pkg ∈ declared_pkgs envs ↔ pkg ∈ (pkg_to_envs envs).map Prod.fst := by
  rw [pkg_to_envs_spec, group_fold_key_mem]
  simp [declared_pkgs]

theorem pkg_to_envs_pair_iff (envs : Envs) (pkg : String) (E : List String) :
    (pkg, E) ∈ pkg_to_envs envs ↔
      (pkg ∈ declared_pkgs envs ∧ env_set_of envs pkg = E) := by
  constructor
  · intro h
    have hk : pkg ∈ (pkg_to_envs envs).map Prod.fst := (mem_keys_iff _ _).mpr ⟨E, h⟩
    refine ⟨(declared_iff_key envs pkg).mpr hk, ?_⟩
    exact dict_get_of_mem _ _ _ _ (pkg_to_envs_keys_nodup envs) h
  · rintro ⟨h1, rfl⟩
    have hk : pkg ∈ (pkg_to_envs envs).map Prod.fst := (declared_iff_key envs pkg).mp h1
    obtain ⟨s, hs⟩ := (mem_keys_iff _ _).mp hk
    have he : env_set_of envs pkg = s :=
      dict_get_of_mem _ _ _ _ (pkg_to_envs_keys_nodup envs) hs
    rw [he]
    exact hs

theorem compute_clusters_entry_mem (envs : Envs) {E S : List String}
    (h : (E, S) ∈ compute_clusters envs) (pkg : String) :
    pkg ∈ S ↔ (pkg, E) ∈ pkg_to_envs envs := by
  constructor
  · intro hpkg
    have hx : ∃ s, (E, s) ∈ compute_clusters envs ∧ pkg ∈ s := ⟨S, h, hpkg⟩
    rw [compute_clusters_spec, group_fold_mem] at hx
    rcases hx with hx | hx
    · obtain ⟨⟨p1, p2⟩, hpe, heq⟩ := List.mem_map.mp hx
      rcases Prod.mk.injEq .. ▸ heq with ⟨rfl, rfl⟩
      exact hpe
    · simp at hx
  · intro hp2e
    have hx : (E, pkg) ∈ (pkg_to_envs envs).map (fun pe => (pe.2, pe.1)) :=
      List.mem_map.mpr ⟨(pkg, E), hp2e, rfl⟩
    have hex : ∃ s, (E, s) ∈ compute_clusters envs ∧ pkg ∈ s := by
      rw [compute_clusters_spec, group_fold_mem]
      exact Or.inl hx
    obtain ⟨s, hs, hpkg⟩ := hex
    rwa [nodup_keys_uniq (compute_clusters envs) (compute_clusters_keys_nodup envs) h hs]

theorem compute_clusters_key_iff (envs : Envs) (E : List String) :
    E ∈ (compute_clusters envs).map Prod.fst ↔ ∃ pkg, (pkg, E) ∈ pkg_to_envs envs := by
  rw [compute_clusters_spec, group_fold_key_mem]
  simp only [List.map_map, List.map_nil, List.not_mem_nil, or_false]
  rw [List.mem_map]
  constructor
  · rintro ⟨⟨p1, p2⟩, hpe, heq⟩
    refine ⟨p1, ?_⟩
    have h2 : p2 = E := heq
    rwa [h2] at hpe
  · rintro ⟨pkg, hpe⟩
    exact ⟨(pkg, E), hpe, rfl⟩

theorem compute_clusters_keys_canon (envs : Envs) :
    ∀ p ∈ compute_clusters envs,
      p.1.Pairwise (fun a b => str_lt a b = true) ∧ p.1 ≠ [] := by
  intro p hp
  have hk : p.1 ∈ (compute_clusters envs).map Prod.fst := List.mem_map.mpr ⟨p, hp, rfl⟩
  obtain ⟨pkg, hpe⟩ := (compute_clusters_key_iff envs p.1).mp hk
  exact pkg_to_envs_values envs (pkg, p.1) hpe

/-- C1: for every input mapping from environment name to package map, the
cluster partition produced by `compute_clusters` is a true partition of the
declared packages: every declared package appears in the package set of
exactly one cluster, distinct clusters have disjoint package sets, and the
union of all cluster package sets is exactly the set of declared packages. -/
theorem C1_cluster_partition (envs : Envs) :
    (∀ pkg, pkg ∈ declared_pkgs envs →
      ∃! c, c ∈ compute_clusters envs ∧ pkg ∈ c.2)
    ∧ (∀ c₁, c₁ ∈ compute_clusters envs → ∀ c₂, c₂ ∈ compute_clusters envs →
        c₁ ≠ c₂ → ∀ pkg, pkg ∈ c₁.2 → pkg ∉ c₂.2)
    ∧ (∀ pkg, (∃ c, c ∈ compute_clusters envs ∧ pkg ∈ c.2) ↔ pkg ∈ declared_pkgs envs) := by
  refine ⟨?_, ?_, ?_⟩
  · intro pkg hdecl
    obtain ⟨E, hE⟩ := (mem_keys_iff _ _).mp ((declared_iff_key envs pkg).mp hdecl)
    have hkey : E ∈ (compute_clusters envs).map Prod.fst :=
      (compute_clusters_key_iff envs E).mpr ⟨pkg, hE⟩
    obtain ⟨S, hS⟩ := (mem_keys_iff _ _).mp hkey
    refine ⟨(E, S), ⟨hS, (compute_clusters_entry_mem envs hS pkg).mpr hE⟩, ?_⟩
    rintro ⟨E', S'⟩ ⟨hS', hpkg'⟩
    have hE' : (pkg, E') ∈ pkg_to_envs envs :=
      (compute_clusters_entry_mem envs hS' pkg).mp hpkg'
    have hEeq : E' = E :=
      nodup_keys_uniq (pkg_to_envs envs) (pkg_to_envs_keys_nodup envs) hE' hE
    subst hEeq
    have hSeq : S' = S :=
      nodup_keys_uniq (compute_clusters envs) (compute_clusters_keys_nodup envs) hS' hS
    subst hSeq
    rfl
  · rintro ⟨E₁, S₁⟩ h1 ⟨E₂, S₂⟩ h2 hne pkg hp1 hp2
    have k1 : (pkg, E₁) ∈ pkg_to_envs envs := (compute_clusters_entry_mem envs h1 pkg).mp hp1
    have k2 : (pkg, E₂) ∈ pkg_to_envs envs := (compute_clusters_entry_mem envs h2 pkg).mp hp2
    have hEeq : E₁ = E₂ :=
      nodup_keys_uniq (pkg_to_envs envs) (pkg_to_envs_keys_nodup envs) k1 k2
    subst hEeq
    have hSeq : S₁ = S₂ :=
      nodup_keys_uniq (compute_clusters envs) (compute_clusters_keys_nodup envs) h1 h2
    exact hne (by rw [hSeq])
  · intro pkg
    constructor
    · rintro ⟨⟨E, S⟩, hc, hpkg⟩
      have hE : (pkg, E) ∈ pkg_to_envs envs := (compute_clusters_entry_mem envs hc pkg).mp hpkg
      exact (declared_iff_key envs pkg).mpr ((mem_keys_iff _ _).mpr ⟨E, hE⟩)
    · intro hdecl
      obtain ⟨E, hE⟩ := (mem_keys_iff _ _).mp ((declared_iff_key envs pkg).mp hdecl)
      have hkey : E ∈ (compute_clusters envs).map Prod.fst :=
        (compute_clusters_key_iff envs E).mpr ⟨pkg, hE⟩
      obtain ⟨S, hS⟩ := (mem_keys_iff _ _).mp hkey
      exact ⟨(E, S), hS, (compute_clusters_entry_mem envs hS pkg).mpr hE⟩

/-- C1 witness: the partition statement applied at a concrete input, placing
`numpy` in the single cluster of both environments. -/
theorem C1_cluster_partition_witness :
    (["a", "b"], ["numpy"])
        ∈ compute_clusters [("a", [("numpy", some "1.0")]), ("b", [("numpy", none)])]
      ∧ "numpy" ∈ ["numpy"] := by
  obtain ⟨c, hc, hm⟩ :=
    ((C1_cluster_partition [("a", [("numpy", some "1.0")]), ("b", [("numpy", none)])]).2.2
      "numpy").mpr (by decide)
  have hcc : compute_clusters [("a", [("numpy", some "1.0")]), ("b", [("numpy", none)])]
      = [(["a", "b"], ["numpy"])] := by decide
  rw [hcc] at hc
  have hcv := List.mem_singleton.mp hc
  subst hcv
  refine ⟨?_, hm⟩
  rw [hcc]
  exact List.mem_singleton.mpr rfl

/-! Supporting lemmas for drift detection. -/

theorem version_pairs_mem (envs : Envs) (pkg x : String) :
    (pkg, x) ∈ version_pairs envs ↔
      ∃ e ∈ envs, ∃ pr ∈ e.2, pr.1 = pkg ∧ py_or_star pr.2 = x := by
  simp only [version_pairs, List.mem_flatMap, List.mem_map, Prod.mk.injEq]

theorem version_set_nodup (envs : Envs) (pkg : String) : (version_set envs pkg).Nodup := by
  refine (version_set_sorted envs pkg).imp ?_
  intro a b h
  rintro rfl
  simp [str_lt_irrefl] at h

theorem nodup_all_eq_length_le {l : List String} {v : String}
    (hnd : l.Nodup) (h : ∀ x ∈ l, x = v) : l.length ≤ 1 := by
  cases l with
  | nil => simp
  | cons a t =>
    cases t with
    | nil => simp
    | cons b t2 =>
      exfalso
      have ha := h a (List.mem_cons_self _ _)
      have hb := h b (List.mem_cons_of_mem _ (List.mem_cons_self _ _))
      rw [List.nodup_cons] at hnd
      apply hnd.1
      rw [ha, ← hb]
      exact List.mem_cons_self b t2

/-- C2: a package is flagged as drift exactly when its version set (with the
sentinel `*` recorded for an unspecified version) has more than one distinct
element; the version set is duplicate-free, so its length counts distinct
elements.  In particular a package declared `1.0` and `2.0` in two
environments has a version set of size 2 and receives both the visible drift
marker in its node label and a style directive in the graph output, while a
package whose recorded version is the same in every declaring environment is
never flagged. -/
theorem C2_drift_detection :
    (∀ (envs : Envs) (pkg : String),
        ((render_pkg (collect_versions envs) pkg).2 = true ↔
          1 < (version_set envs pkg).length))
    ∧ (∀ (envs : Envs) (pkg : String), (version_set envs pkg).Nodup)
    ∧ version_set [("A", [("p", some "1.0")]), ("B", [("p", some "2.0")])] "p"
        = ["1.0", "2.0"]
    ∧ "    p__1_0___[p==1.0 ⚠️]"
        ∈ build_mermaid_lines [("A", [("p", some "1.0")]), ("B", [("p", some "2.0")])]
    ∧ "  style p__1_0___ fill:#ffe6e6,stroke:#ff0000,stroke-width:2px"
        ∈ build_mermaid_lines [("A", [("p", some "1.0")]), ("B", [("p", some "2.0")])]
    ∧ (∀ (envs : Envs) (pkg v : String),
        (∀ e ∈ envs, ∀ pr ∈ e.2, pr.1 = pkg → py_or_star pr.2 = v) →
        (render_pkg (collect_versions envs) pkg).2 = false) := by
  refine ⟨?_, version_set_nodup, by decide, by decide, by decide, ?_⟩
  · intro envs pkg
    simp [render_pkg, version_set]
  · intro envs pkg v hall
    have hmem : ∀ x ∈ version_set envs pkg, x = v := by
      intro x hx
      rw [version_set_mem, version_pairs_mem] at hx
      obtain ⟨e, he, pr, hpr, h1, h2⟩ := hx
      rw [← h2]
      exact hall e he pr hpr h1
    have hlen := nodup_all_eq_length_le (version_set_nodup envs pkg) hmem
    simp only [render_pkg]
    rw [decide_eq_false_iff_not]
    exact Nat.not_lt.mpr hlen

/-- C2 witness: the never-flagged statement applied at a concrete input where
the package's recorded version is the sentinel everywhere. -/
theorem C2_drift_detection_witness :
    (render_pkg (collect_versions [("a", [("req", none)]), ("b", [("req", some "")])]) "req").2
      = false :=
  C2_drift_detection.2.2.2.2.2 [("a", [("req", none)]), ("b", [("req", some "")])] "req" "*"
    (by decide)

/-- C7: when `parse_requirements` is given a path to a non-existent file it
returns an empty package map and never raises: silently when the path
contains the bracket character `<` or the substring `path` (an unresolved
placeholder), otherwise with a warning; either way the run continues with
this file contributing no packages. -/
theorem C7_missing_requirements (fs : String → Option (List String)) (req_path : String)
    (h : fs req_path = none) :
    parse_requirements fs req_path =
      ([], if py_in "<" req_path || py_in "path" req_path then []
           else ["⚠️  requirements file not found: " ++ req_path]) := by
  simp only [parse_requirements, h]
  split_ifs <;> rfl

/-- C7 witness: a placeholder path is silently ignored while a genuinely
missing path warns; both contribute no packages. -/
theorem C7_missing_requirements_witness :
    parse_requirements (fun _ => none) "<path-to-requirements>" = ([], [])
    ∧ parse_requirements (fun _ => none) "reqs/missing.txt"
        = ([], ["⚠️  requirements file not found: reqs/missing.txt"]) := by
  constructor
  · rw [C7_missing_requirements (fun _ => none) "<path-to-requirements>" rfl]
    decide
  · rw [C7_missing_requirements (fun _ => none) "reqs/missing.txt" rfl]
    decide

theorem normalize_pkg_eq_canon (a : String) :
    normalize_pkg a = String.mk (a.data.map char_canon) := by
  simp only [normalize_pkg, List.map_map]
  rfl

/-- C8: two package names that differ only in letter case or in
hyphen-versus-underscore separators normalize to the same canonical name, so
occurrences in different environments merge into a single entry of the
version index and a single member of one cluster. -/
theorem C8_normalization :
    (∀ a b : String, case_sep_variants a b → normalize_pkg a = normalize_pkg b)
    ∧ normalize_pkg "My-Package" = normalize_pkg "my_package"
    ∧ collect_versions
        [("A", (parse_requirements (fun _ => some ["My-Package==1.0"]) "A/reqs.txt").1),
         ("B", (parse_requirements (fun _ => some ["my_package==2.0"]) "B/reqs.txt").1)]
        = [("my_package", ["1.0", "2.0"])]
    ∧ compute_clusters
        [("A", (parse_requirements (fun _ => some ["My-Package==1.0"]) "A/reqs.txt").1),
         ("B", (parse_requirements (fun _ => some ["my_package==2.0"]) "B/reqs.txt").1)]
        = [(["A", "B"], ["my_package"])] := by
  refine ⟨?_, by decide, by decide, by decide⟩
  intro a b h
  rw [normalize_pkg_eq_canon, normalize_pkg_eq_canon, h]

/-- C8 witness: the normalization statement applied at the spec's example
pair of names. -/
theorem C8_normalization_witness :
    normalize_pkg "My-Package" = normalize_pkg "my_package" :=
  C8_normalization.1 "My-Package" "my_package" (by unfold case_sep_variants; decide)

/-! Supporting lemmas for the `load_envs` abort behaviour. -/

theorem process_entries_target (fs : String → Option (List String)) (dir : String)
    (s : String) (rest : List PipEntry) (pkgs : PkgMap)
    (hs : py_startswith s "-r" = true) (hlen : (py_split_max1 s).length ≤ 1) :
    ∃ e, process_entries fs dir (PipEntry.str s :: rest) pkgs = Except.error e := by
  rcases hsp : py_split_max1 s with _ | ⟨x, t⟩
  · exact ⟨"IndexError: list index out of range", by simp [process_entries, hs, hsp]⟩
  · cases t with
    | nil => exact ⟨"IndexError: list index out of range", by simp [process_entries, hs, hsp]⟩
    | cons y t2 =>
      rw [hsp] at hlen
      simp at hlen

theorem process_entries_head (fs : String → Option (List String)) (dir : String)
    (en : PipEntry) (rest : List PipEntry) (pkgs : PkgMap) :
    (∃ e, process_entries fs dir (en :: rest) pkgs = Except.error e)
    ∨ (∃ pkgs', process_entries fs dir (en :: rest) pkgs
          = process_entries fs dir rest pkgs') := by
  cases en with
  | nonstr => exact Or.inr ⟨pkgs, rfl⟩
  | str s' =>
    by_cases hb : py_startswith s' "-r" = true
    · rcases hsp : py_split_max1 s' with _ | ⟨x, t⟩
      · exact Or.inl ⟨"IndexError: list index out of range",
          by simp [process_entries, hb, hsp]⟩
      · cases t with
        | nil => exact Or.inl ⟨"IndexError: list index out of range",
            by simp [process_entries, hb, hsp]⟩
        | cons y t2 =>
          refine Or.inr ⟨dict_update pkgs (parse_requirements fs (path_join dir y)).1, ?_⟩
          simp [process_entries, hb, hsp]
    · refine Or.inr ⟨pkgs, ?_⟩
      simp [process_entries, hb]

theorem process_entries_error (fs : String → Option (List String)) (dir : String)
    (s : String) (hs : py_startswith s "-r" = true)
    (hlen : (py_split_max1 s).length ≤ 1) :
    ∀ entries : List PipEntry, PipEntry.str s ∈ entries →
      ∀ pkgs, ∃ e, process_entries fs dir entries pkgs = Except.error e := by
  intro entries
  induction entries with
  | nil =>
    intro h pkgs
    simp at h
  | cons en rest ih =>
    intro hmem pkgs
    rcases List.mem_cons.mp hmem with h | h
    · subst h
      exact process_entries_target fs dir s rest pkgs hs hlen
    · rcases process_entries_head fs dir en rest pkgs with ⟨e, he⟩ | ⟨pkgs', hp⟩
      · exact ⟨e, he⟩
      · rw [hp]
        exact ih h pkgs'

theorem process_deps_error (fs : String → Option (List String)) (dir : String)
    (entries : List PipEntry)
    (herr : ∀ pkgs, ∃ e, process_entries fs dir entries pkgs = Except.error e) :
    ∀ deps : List Dep, Dep.pip entries ∈ deps →
      ∀ pkgs, ∃ e, process_deps fs dir deps pkgs = Except.error e := by
  intro deps
  induction deps with
  | nil =>
    intro h pkgs
    simp at h
  | cons d rest ih =>
    intro hmem pkgs
    rcases List.mem_cons.mp hmem with h | h
    · subst h
      obtain ⟨e, he⟩ := herr pkgs
      exact ⟨e, by simp [process_deps, he]⟩
    · cases d with
      | scalar =>
        simp only [process_deps]
        exact ih h pkgs
      | pip entries' =>
        cases hpe : process_entries fs dir entries' pkgs with
        | error e' => exact ⟨e', by simp [process_deps, hpe]⟩
        | ok pkgs' =>
          simp only [process_deps, hpe]
          exact ih h pkgs'

theorem load_envs_aux_error (fs : String → Option (List String)) (dirName : String)
    (data : EnvData)
    (hplace : is_placeholder_name (data.name.getD dirName) = false)
    (herr : ∀ pkgs, ∃ e, process_deps fs dirName data.dependencies pkgs = Except.error e) :
    ∀ dirs : List (String × EnvData), (dirName, data) ∈ dirs →
      ∀ acc, ∃ e, load_envs_aux fs dirs acc = Except.error e := by
  intro dirs
  induction dirs with
  | nil =>
    intro h acc
    simp at h
  | cons d rest ih =>
    intro hmem acc
    rcases List.mem_cons.mp hmem with h | h
    · rw [← h]
      obtain ⟨e, he⟩ := herr []
      exact ⟨e, by simp [load_envs_aux, hplace, he]⟩
    · obtain ⟨dn, dt⟩ := d
      cases hval : is_placeholder_name (dt.name.getD dn) with
      | true =>
        simp only [load_envs_aux, hval, if_true]
        exact ih h acc
      | false =>
        cases hpd : process_deps fs dn dt.dependencies [] with
        | error e => exact ⟨e, by simp [load_envs_aux, hval, hpd]⟩
        | ok pkgs =>
          simp only [load_envs_aux, hval, hpd, Bool.false_eq_true, if_false]
          exact ih h _

/-- C9: `load_envs` is not total over well-formed inputs — an environment
whose `pip` list contains a string entry starting with `-r` but with no
whitespace-separated path after it (such as the entry exactly `-r`) makes the
index access after `split(maxsplit=1)` raise an unhandled `IndexError`,
aborting the run instead of degrading to zero contributed packages. -/
theorem C9_load_envs_index_error (fs : String → Option (List String))
    (dirs : List (String × EnvData)) (dirName : String) (data : EnvData)
    (entries : List PipEntry) (s : String)
    (hdir : (dirName, data) ∈ dirs)
    (hname : is_placeholder_name (data.name.getD dirName) = false)
    (hdep : Dep.pip entries ∈ data.dependencies)
    (hent : PipEntry.str s ∈ entries)
    (hr : py_startswith s "-r" = true)
    (hsplit : (py_split_max1 s).length ≤ 1) :
    ∃ e, load_envs fs dirs = Except.error e := by
  have h1 := process_entries_error fs dirName s hr hsplit entries hent
  have h2 := process_deps_error fs dirName entries h1 data.dependencies hdep
  exact load_envs_aux_error fs dirName data hname h2 dirs hdir []

/-- C9 witness: a single environment whose pip list is exactly `["-r"]`
aborts the load with the modelled IndexError. -/
theorem C9_load_envs_index_error_witness :
    load_envs (fun _ => none) [("ml", ⟨some "ml", [Dep.pip [PipEntry.str "-r"]]⟩)]
      = Except.error "IndexError: list index out of range" := by
  obtain ⟨e, he⟩ := C9_load_envs_index_error (fun _ => none)
    [("ml", ⟨some "ml", [Dep.pip [PipEntry.str "-r"]]⟩)] "ml"
    ⟨some "ml", [Dep.pip [PipEntry.str "-r"]]⟩ [PipEntry.str "-r"] "-r"
    (by decide) (by decide) (by decide) (by decide) (by decide) (by decide)
  rw [he]
  have h2 : load_envs (fun _ => none) [("ml", ⟨some "ml", [Dep.pip [PipEntry.str "-r"]]⟩)]
      = Except.error "IndexError: list index out of range" := by rfl
  rw [h2] at he
  injection he with h3
  rw [h3]

/-! Supporting lemmas for the requirement-line pattern. -/

theorem takeWhile_all_append (p : Char → Bool) :
    ∀ (l : List Char) (c : Char) (r : List Char),
      (∀ x ∈ l, p x = true) → p c = false →
      ((l ++ c :: r).takeWhile p = l ∧ (l ++ c :: r).dropWhile p = c :: r) := by
  intro l
  induction l with
  | nil =>
    intro c r _ hc
    simp [List.takeWhile_cons, List.dropWhile_cons, hc]
  | cons a t ih =>
    intro c r hall hc
    have ha := hall a (List.mem_cons_self _ _)
    have iht := ih c r (fun x hx => hall x (List.mem_cons_of_mem _ hx)) hc
    simp [List.takeWhile_cons, List.dropWhile_cons, ha, iht.1, iht.2]

theorem name_char_not_space (c : Char) (h : is_name_char c = true) : py_isspace c = false := by
  by_contra hcon
  rw [Bool.not_eq_false] at hcon
  simp only [py_isspace, Bool.or_eq_true, beq_iff_eq] at hcon
  have h6 : c = ' ' ∨ c = '\t' ∨ c = '\n' ∨ c = '\r' ∨ c = '\x0b' ∨ c = '\x0c' := by tauto
  rcases h6 with rfl | rfl | rfl | rfl | rfl | rfl <;> exact absurd h (by decide)

/-- C10: the requirement-line pattern is matched as an unanchored prefix: a
line made of a name token followed by any character that is neither a name
character nor the start of `==` (for example the `>` of `numpy>=1.0`) is not
skipped; the leading name is captured and stored with no version, and the
text after the matched prefix is ignored.  Concretely, `numpy>=1.0` parses
to `numpy` with no version, recorded as the sentinel `*` in the version
index. -/
theorem C10_unanchored_prefix :
    (∀ (name : List Char) (c : Char) (rest : List Char),
        name ≠ [] → (∀ ch ∈ name, is_name_char ch = true) →
        is_name_char c = false → c ≠ '=' →
        req_line_match (String.mk (name ++ c :: rest)) = some (String.mk name, none))
    ∧ (parse_requirements (fun _ => some ["numpy>=1.0"]) "reqs.txt").1 = [("numpy", none)]
    ∧ version_set [("e", (parse_requirements (fun _ => some ["numpy>=1.0"]) "reqs.txt").1)]
        "numpy" = ["*"] := by
  refine ⟨?_, by decide, by decide⟩
  intro name c rest hne hall hc hceq
  have hdata : (String.mk (name ++ c :: rest)).data = name ++ c :: rest := rfl
  simp only [req_line_match, hdata]
  have hdrop : (name ++ c :: rest).dropWhile py_isspace = name ++ c :: rest := by
    cases name with
    | nil => exact absurd rfl hne
    | cons a t =>
      have ha : py_isspace a = false := name_char_not_space a (hall a (List.mem_cons_self _ _))
      simp [List.dropWhile_cons, ha]
  rw [hdrop]
  obtain ⟨htw, hdw⟩ := takeWhile_all_append is_name_char name c rest hall hc
  rw [htw, hdw, if_neg hne]
  split
  · rename_i rest2 heq
    exact absurd (List.cons.injEq .. ▸ heq).1 hceq
  · rfl

/-- C10 witness: the prefix-match statement applied to the concrete line
`numpy>=1.0`. -/
theorem C10_unanchored_prefix_witness :
    req_line_match (String.mk ("numpy".data ++ '>' :: "=1.0".data))
      = some (String.mk "numpy".data, none) :=
  C10_unanchored_prefix.1 "numpy".data '>' "=1.0".data (by decide) (by decide)
    (by decide) (by decide)

/-- C6: for every package rendered in the graph, if its version set contains
a non-sentinel version then the node label is the package name followed by
`==` and the lexicographically smallest non-sentinel version, otherwise the
bare package name; the visible drift marker is appended exactly when the
package has drift (version set size > 1). -/
theorem C6_node_label (envs : Envs) (pkg : String) :
    ((version_set envs pkg).filter (fun v => !(v == "*")) = [] →
      (render_pkg (collect_versions envs) pkg).1
        = (if 1 < (version_set envs pkg).length then pkg ++ " ⚠️" else pkg))
    ∧ ((version_set envs pkg).filter (fun v => !(v == "*")) ≠ [] →
      ∃ v, v ∈ (version_set envs pkg).filter (fun v => !(v == "*"))
        ∧ (∀ w ∈ (version_set envs pkg).filter (fun v => !(v == "*")), str_le v w = true)
        ∧ (render_pkg (collect_versions envs) pkg).1
            = (if 1 < (version_set envs pkg).length
               then pkg ++ "==" ++ v ++ " ⚠️" else pkg ++ "==" ++ v)) := by
  have hvs : dict_get (collect_versions envs) pkg [] = version_set envs pkg := rfl
  constructor
  · intro hF
    simp only [render_pkg, hvs, hF]
    by_cases hd : 1 < (version_set envs pkg).length
    · simp [hd, py_sorted]
    · simp [hd, py_sorted]
  · intro hF
    have hex : ∃ v L, py_sorted str_le ((version_set envs pkg).filter (fun v => !(v == "*")))
        = v :: L := by
      rcases hcase : py_sorted str_le ((version_set envs pkg).filter (fun v => !(v == "*")))
          with _ | ⟨v, L⟩
      · exfalso
        apply hF
        have hperm := py_sorted_perm str_le
          ((version_set envs pkg).filter (fun v => !(v == "*")))
        rw [hcase] at hperm
        exact (hperm.symm.eq_nil)
      · exact ⟨v, L, rfl⟩
    obtain ⟨v, L, hL⟩ := hex
    refine ⟨v, ?_, ?_, ?_⟩
    · have hm : v ∈ py_sorted str_le ((version_set envs pkg).filter (fun v => !(v == "*"))) := by
        rw [hL]
        exact List.mem_cons_self _ _
      exact (py_sorted_mem str_le _ v).mp hm
    · intro w hw
      have hw' : w ∈ py_sorted str_le ((version_set envs pkg).filter (fun v => !(v == "*"))) :=
        (py_sorted_mem str_le _ w).mpr hw
      rw [hL] at hw'
      rcases List.mem_cons.mp hw' with rfl | hwL
      · exact str_le_refl w
      · have hp := py_sorted_pairwise str_le str_le_total str_le_trans
          ((version_set envs pkg).filter (fun v => !(v == "*")))
        rw [hL] at hp
        exact (List.pairwise_cons.mp hp).1 w hwL
    · simp only [render_pkg, hvs, hL]
      by_cases hd : 1 < (version_set envs pkg).length
      · simp [hd]
      · simp [hd]

/-- C6 witness: a single pinned version yields the `pkg==version` label with
no marker. -/
theorem C6_node_label_witness :
    (render_pkg (collect_versions [("A", [("p", some "2.0")])]) "p").1 = "p==2.0" := by
  obtain ⟨v, hv, hmin, heq⟩ := (C6_node_label [("A", [("p", some "2.0")])] "p").2 (by decide)
  have hFv : (version_set [("A", [("p", some "2.0")])] "p").filter (fun v => !(v == "*"))
      = ["2.0"] := by decide
  rw [hFv] at hv
  have hv2 : v = "2.0" := by simpa using hv
  subst hv2
  rw [heq]
  decide

/-- C3: divergence demonstration for the report header.  `build_cluster_report`
joins the raw environment-name frozenset (`", ".join(env_set)`), whose
iteration order the source language leaves unspecified, not the sorted list.
Under a legitimate set enumeration (here: reverse sorted order, a permutation
of the set's elements, as CPython's hash-order iteration can produce) the
section header for the cluster `{a, b}` is `[b, a]`, not the sorted `[a, b]`
that the specification requires; the rest of the section (one indented line
per package, sorted) is as specified. -/
theorem C3_report_header_not_sorted :
    valid_set_iter rev_set_iter
    ∧ "[b, a]" ∈ report_lines rev_set_iter [(["a", "b"], ["numpy"])]
    ∧ "[a, b]" ∉ report_lines rev_set_iter [(["a", "b"], ["numpy"])]
    ∧ build_cluster_report rev_set_iter [(["a", "b"], ["numpy"])]
        = "📦 Dependency Clusters\n\n[b, a]\n  - numpy\n" := by
  refine ⟨?_, by decide, by decide, by decide⟩
  intro s
  exact (List.reverse_perm _).trans (py_sorted_perm str_le s)

/-! Supporting lemmas for order independence. -/

theorem decl_pairs_mem (envs : Envs) (pkg env : String) :
    (pkg, env) ∈ decl_pairs envs ↔
      ∃ e ∈ envs, ∃ pr ∈ e.2, pr.1 = pkg ∧ e.1 = env := by
  simp only [decl_pairs, List.mem_flatMap, List.mem_map, Prod.mk.injEq]

theorem version_pairs_mem_perm (e₁ e₂ : Envs) (h : List.Perm e₁ e₂) (pkg x : String) :
    (pkg, x) ∈ version_pairs e₁ ↔ (pkg, x) ∈ version_pairs e₂ := by
  rw [version_pairs_mem, version_pairs_mem]
  constructor
  · rintro ⟨e, he, pr, hpr, h1, h2⟩
    exact ⟨e, h.mem_iff.mp he, pr, hpr, h1, h2⟩
  · rintro ⟨e, he, pr, hpr, h1, h2⟩
    exact ⟨e, h.mem_iff.mpr he, pr, hpr, h1, h2⟩

theorem decl_pairs_mem_perm (e₁ e₂ : Envs) (h : List.Perm e₁ e₂) (pkg env : String) :
    (pkg, env) ∈ decl_pairs e₁ ↔ (pkg, env) ∈ decl_pairs e₂ := by
  rw [decl_pairs_mem, decl_pairs_mem]
  constructor
  · rintro ⟨e, he, pr, hpr, h1, h2⟩
    exact ⟨e, h.mem_iff.mp he, pr, hpr, h1, h2⟩
  · rintro ⟨e, he, pr, hpr, h1, h2⟩
    exact ⟨e, h.mem_iff.mpr he, pr, hpr, h1, h2⟩

theorem version_set_perm (e₁ e₂ : Envs) (h : List.Perm e₁ e₂) (pkg : String) :
    version_set e₁ pkg = version_set e₂ pkg := by
  apply sorted_lt_ext _ _ (version_set_sorted e₁ pkg) (version_set_sorted e₂ pkg)
  intro x
  rw [version_set_mem, version_set_mem]
  exact version_pairs_mem_perm e₁ e₂ h pkg x

theorem env_set_of_perm (e₁ e₂ : Envs) (h : List.Perm e₁ e₂) (pkg : String) :
    env_set_of e₁ pkg = env_set_of e₂ pkg := by
  apply sorted_lt_ext _ _ (env_set_of_sorted e₁ pkg) (env_set_of_sorted e₂ pkg)
  intro x
  rw [env_set_of_mem, env_set_of_mem]
  exact decl_pairs_mem_perm e₁ e₂ h pkg x

theorem declared_pkgs_perm (e₁ e₂ : Envs) (h : List.Perm e₁ e₂) (pkg : String) :
    pkg ∈ declared_pkgs e₁ ↔ pkg ∈ declared_pkgs e₂ := by
  rw [show declared_pkgs e₁ = (decl_pairs e₁).map Prod.fst from rfl]
  rw [show declared_pkgs e₂ = (decl_pairs e₂).map Prod.fst from rfl]
  rw [mem_keys_iff, mem_keys_iff]
  constructor
  · rintro ⟨env, henv⟩
    exact ⟨env, (decl_pairs_mem_perm e₁ e₂ h pkg env).mp henv⟩
  · rintro ⟨env, henv⟩
    exact ⟨env, (decl_pairs_mem_perm e₁ e₂ h pkg env).mpr henv⟩

theorem pkg_to_envs_mem_perm (e₁ e₂ : Envs) (h : List.Perm e₁ e₂) (pkg : String)
    (E : List String) :
    (pkg, E) ∈ pkg_to_envs e₁ ↔ (pkg, E) ∈ pkg_to_envs e₂ := by
  rw [pkg_to_envs_pair_iff, pkg_to_envs_pair_iff, env_set_of_perm e₁ e₂ h pkg]
  rw [declared_pkgs_perm e₁ e₂ h pkg]

theorem compute_clusters_mem_char (envs : Envs) (E S : List String) :
    (E, S) ∈ compute_clusters envs ↔
      (S ≠ [] ∧ S.Pairwise (fun a b => str_lt a b = true)
        ∧ ∀ pkg, (pkg ∈ S ↔ (pkg, E) ∈ pkg_to_envs envs)) := by
  constructor
  · intro h
    have hv := compute_clusters_values envs (E, S) h
    exact ⟨hv.2, hv.1, fun pkg => compute_clusters_entry_mem envs h pkg⟩
  · rintro ⟨hne, hsort, hmem⟩
    obtain ⟨pkg0, hp0⟩ := List.exists_mem_of_ne_nil S hne
    have hp2e := (hmem pkg0).mp hp0
    have hkey : E ∈ (compute_clusters envs).map Prod.fst :=
      (compute_clusters_key_iff envs E).mpr ⟨pkg0, hp2e⟩
    obtain ⟨S', hS'⟩ := (mem_keys_iff _ _).mp hkey
    have hSS : S' = S := by
      apply sorted_lt_ext S' S (compute_clusters_values envs (E, S') hS').1 hsort
      intro x
      rw [compute_clusters_entry_mem envs hS' x, ← hmem x]
    rw [← hSS]
    exact hS'

theorem compute_clusters_perm (e₁ e₂ : Envs) (h : List.Perm e₁ e₂) :
    List.Perm (compute_clusters e₁) (compute_clusters e₂) := by
  apply (List.perm_ext_iff_of_nodup
    (List.Nodup.of_map Prod.fst (compute_clusters_keys_nodup e₁))
    (List.Nodup.of_map Prod.fst (compute_clusters_keys_nodup e₂))).mpr
  rintro ⟨E, S⟩
  rw [compute_clusters_mem_char, compute_clusters_mem_char]
  constructor
  · rintro ⟨hne, hsort, hmem⟩
    exact ⟨hne, hsort, fun pkg => (hmem pkg).trans (pkg_to_envs_mem_perm e₁ e₂ h pkg E)⟩
  · rintro ⟨hne, hsort, hmem⟩
    exact ⟨hne, hsort, fun pkg => (hmem pkg).trans (pkg_to_envs_mem_perm e₁ e₂ h pkg E).symm⟩

theorem cluster_items_le_total (a b : List String × List String) :
    cluster_items_le a b = true ∨ cluster_items_le b a = true :=
  key_le_total (cluster_key a.1) (cluster_key b.1)

theorem cluster_items_le_trans (a b c : List String × List String) :
    cluster_items_le a b = true → cluster_items_le b c = true →
      cluster_items_le a c = true :=
  key_le_trans (cluster_key a.1) (cluster_key b.1) (cluster_key c.1)

theorem cluster_keys_le_total (a b : List String) :
    cluster_keys_le a b = true ∨ cluster_keys_le b a = true :=
  key_le_total (cluster_key a) (cluster_key b)

theorem cluster_keys_le_trans (a b c : List String) :
    cluster_keys_le a b = true → cluster_keys_le b c = true →
      cluster_keys_le a c = true :=
  key_le_trans (cluster_key a) (cluster_key b) (cluster_key c)

theorem cluster_key_inj (E F : List String)
    (hE : E.Pairwise (fun a b => str_lt a b = true))
    (hF : F.Pairwise (fun a b => str_lt a b = true))
    (h : cluster_key E = cluster_key F) : E = F := by
  have h2 : py_sorted str_le E = py_sorted str_le F := congrArg Prod.snd h
  rwa [py_sorted_eq_self E hE, py_sorted_eq_self F hF] at h2

theorem sorted_cluster_items_perm_eq (e₁ e₂ : Envs) (h : List.Perm e₁ e₂) :
    sorted_cluster_items (compute_clusters e₁)
      = sorted_cluster_items (compute_clusters e₂) := by
  apply eq_of_perm_of_pairwise (R := fun a b => cluster_items_le a b = true)
  · exact ((py_sorted_perm cluster_items_le (compute_clusters e₁)).trans
      (compute_clusters_perm e₁ e₂ h)).trans
      (py_sorted_perm cluster_items_le (compute_clusters e₂)).symm
  · exact py_sorted_pairwise cluster_items_le cluster_items_le_total cluster_items_le_trans _
  · exact py_sorted_pairwise cluster_items_le cluster_items_le_total cluster_items_le_trans _
  · intro a ha b hb hab hba
    have ha' : a ∈ compute_clusters e₁ :=
      (py_sorted_mem cluster_items_le (compute_clusters e₁) a).mp ha
    have hb' : b ∈ compute_clusters e₂ :=
      (py_sorted_mem cluster_items_le (compute_clusters e₂) b).mp hb
    have hkeys : cluster_key a.1 = cluster_key b.1 := key_le_antisymm _ _ hab hba
    have hE : a.1 = b.1 :=
      cluster_key_inj a.1 b.1 (compute_clusters_keys_canon e₁ a ha').1
        (compute_clusters_keys_canon e₂ b hb').1 hkeys
    have hca := (compute_clusters_mem_char e₁ a.1 a.2).mp ha'
    have hcb := (compute_clusters_mem_char e₂ b.1 b.2).mp hb'
    have hS : a.2 = b.2 := by
      apply sorted_lt_ext a.2 b.2 hca.2.1 hcb.2.1
      intro x
      rw [hca.2.2 x, hcb.2.2 x, hE]
      exact pkg_to_envs_mem_perm e₁ e₂ h x b.1
    exact Prod.ext hE hS

theorem render_pkg_congr (v₁ v₂ : List (String × List String))
    (h : ∀ pkg, dict_get v₁ pkg [] = dict_get v₂ pkg []) :
    render_pkg v₁ = render_pkg v₂ := by
  funext pkg
  simp only [render_pkg, h pkg]

theorem build_mermaid_lines_perm (e₁ e₂ : Envs) (h : List.Perm e₁ e₂) :
    build_mermaid_lines e₁ = build_mermaid_lines e₂ := by
  have hr : render_pkg (collect_versions e₁) = render_pkg (collect_versions e₂) :=
    render_pkg_congr _ _ (fun pkg => version_set_perm e₁ e₂ h pkg)
  unfold build_mermaid_lines
  rw [sorted_cluster_items_perm_eq e₁ e₂ h]
  simp only [mermaid_from, mermaid_cluster_block, mermaid_drift_nodes, hr]

/-- C4: the pipeline's output is independent of discovery order: for any two
environment mappings that are permutations of each other, `compute_clusters`
yields the same partition, `collect_versions` yields the same version set
for every package (hence the same drift flags and rendered labels), and
`build_mermaid` yields the identical rendered graph text. -/
theorem C4_order_independence (e₁ e₂ : Envs) (h : List.Perm e₁ e₂) :
    List.Perm (compute_clusters e₁) (compute_clusters e₂)
    ∧ (∀ pkg, version_set e₁ pkg = version_set e₂ pkg)
    ∧ (∀ pkg, render_pkg (collect_versions e₁) pkg = render_pkg (collect_versions e₂) pkg)
    ∧ build_mermaid e₁ = build_mermaid e₂ := by
  have hr : render_pkg (collect_versions e₁) = render_pkg (collect_versions e₂) :=
    render_pkg_congr _ _ (fun pkg => version_set_perm e₁ e₂ h pkg)
  refine ⟨compute_clusters_perm e₁ e₂ h, version_set_perm e₁ e₂ h, ?_, ?_⟩
  · intro pkg
    rw [hr]
  · unfold build_mermaid
    rw [build_mermaid_lines_perm e₁ e₂ h]

/-- C4 witness: swapping the discovery order of two environments leaves the
rendered graph text unchanged. -/
theorem C4_order_independence_witness :
    build_mermaid [("A", [("p", some "1.0")]), ("B", [("p", some "2.0")])]
      = build_mermaid [("B", [("p", some "2.0")]), ("A", [("p", some "1.0")])] :=
  (C4_order_independence
    [("A", [("p", some "1.0")]), ("B", [("p", some "2.0")])]
    [("B", [("p", some "2.0")]), ("A", [("p", some "1.0")])]
    (List.Perm.swap _ _ _)).2.2.2

/-- C5: both renderers emit clusters in the same order — `build_mermaid`
sorts the cluster items and `build_cluster_report` sorts the cluster keys by
the same `(environment-set size ascending, lexicographic sorted names)` key,
so the emitted key sequences coincide and are sorted by that key; within
each cluster packages are rendered in lexicographic order, and the report's
package list for a cluster is exactly the mermaid cluster's sorted package
list; the canonical-key premise holds for every partition that
`compute_clusters` produces. -/
theorem C5_renderer_ordering (clusters : List (List String × List String))
    (hcanon : ∀ c ∈ clusters, c.1.Pairwise (fun a b => str_lt a b = true))
    (hnd : (clusters.map Prod.fst).Nodup) :
    ((sorted_cluster_items clusters).map Prod.fst
        = sorted_cluster_keys (clusters.map Prod.fst))
    ∧ (sorted_cluster_keys (clusters.map Prod.fst)).Pairwise
        (fun E F => cluster_keys_le E F = true)
    ∧ (∀ c ∈ sorted_cluster_items clusters,
        (py_sorted str_le c.2).Pairwise (fun a b => str_le a b = true)
        ∧ py_sorted str_le (dict_get clusters c.1 []) = py_sorted str_le c.2)
    ∧ (∀ envs : Envs, ∀ c ∈ compute_clusters envs,
        c.1.Pairwise (fun a b => str_lt a b = true)) := by
  refine ⟨?_, ?_, ?_, ?_⟩
  · apply eq_of_perm_of_pairwise (R := fun E F => cluster_keys_le E F = true)
    · exact (((py_sorted_perm cluster_items_le clusters).map Prod.fst).trans
        (py_sorted_perm cluster_keys_le (clusters.map Prod.fst)).symm)
    · have hp := py_sorted_pairwise cluster_items_le cluster_items_le_total
        cluster_items_le_trans clusters
      exact List.pairwise_map.mpr (hp.imp (fun hh => hh))
    · exact py_sorted_pairwise cluster_keys_le cluster_keys_le_total
        cluster_keys_le_trans (clusters.map Prod.fst)
    · intro E hE F hF hEF hFE
      have hE' : E ∈ clusters.map Prod.fst := by
        have h1 : E ∈ (py_sorted cluster_items_le clusters).map Prod.fst := hE
        have h2 := ((py_sorted_perm cluster_items_le clusters).map Prod.fst).mem_iff.mp h1
        exact h2
      have hF' : F ∈ clusters.map Prod.fst :=
        (py_sorted_mem cluster_keys_le (clusters.map Prod.fst) F).mp hF
      obtain ⟨cE, hcE, hcE2⟩ := List.mem_map.mp hE'
      obtain ⟨cF, hcF, hcF2⟩ := List.mem_map.mp hF'
      have hkeys : cluster_key E = cluster_key F := key_le_antisymm _ _ hEF hFE
      refine cluster_key_inj E F ?_ ?_ hkeys
      · rw [← hcE2]
        exact hcanon cE hcE
      · rw [← hcF2]
        exact hcanon cF hcF
  · exact py_sorted_pairwise cluster_keys_le cluster_keys_le_total
      cluster_keys_le_trans (clusters.map Prod.fst)
  · intro c hc
    have hc' : c ∈ clusters := (py_sorted_mem cluster_items_le clusters c).mp hc
    refine ⟨py_sorted_pairwise str_le str_le_total str_le_trans c.2, ?_⟩
    have hget : dict_get clusters c.1 [] = c.2 :=
      dict_get_of_mem clusters c.1 c.2 [] hnd hc'
    rw [hget]
  · intro envs c hc
    exact (compute_clusters_keys_canon envs c hc).1

/-- C5 witness: the renderer ordering statement applied at a concrete
two-cluster partition, whose emitted key sequences coincide. -/
theorem C5_renderer_ordering_witness :
    (sorted_cluster_items [(["b"], ["y"]), (["a"], ["x"])]).map Prod.fst
      = sorted_cluster_keys ([(["b"], ["y"]), (["a"], ["x"])].map Prod.fst) :=
  (C5_renderer_ordering [(["b"], ["y"]), (["a"], ["x"])] (by decide) (by decide)).1
